import Mathlib

/-!
Verification of the RaptorQ iOS decoding-context bindings.

The repository ships only the generated C header
(`raptorq.h`, declaring `RQContext { oti, decoder, result }`,
`raptorq_ctx_push_frame`, `raptorq_ctx_is_complete`,
`raptorq_ctx_take_result`, ...); the decoding engine behind these
declarations is not part of the repository, so it is modelled here from
the specification's description of the OTI model, the symbol buffer,
the per-block solver, the source reconstructor and the decoding
context's lifecycle.  The model keeps the spec's contract exactly:
symbols are deduplicated by `(blockIndex, esi)`, the solver for a block
is invoked only while the block is unsolved and at least `K` distinct
symbols have arrived, the solver's output is a deterministic function
of the received symbol set, completion means every block is solved, the
result is assembled once at the completion transition by concatenating
the blocks in index order and truncating to `transferLength`, and
result extraction moves the buffer out of the context.
-/

namespace RaptorQ

/-- A byte, kept as a natural number (all operations used here, namely
XOR, preserve the `< 256` range, so no modular reduction is needed). -/
abbrev Byte := Nat

/-- Modelled from the spec: the Object Transmission Information value —
`transferLength` and `symbolSize` are the two primary fields, and the
source-block count is the derived-parameter hint carried alongside them;
the per-block symbol count `K` is recomputed from these, never stored. -/
structure ObjectTransmissionInformation where
  transferLength : Nat
  symbolSize : Nat
  sourceBlockCount : Nat
deriving Repr, DecidableEq

abbrev OTI := ObjectTransmissionInformation

/-- Modelled from the spec: total number of symbols needed to cover the
transfer, `ceil(transferLength / symbolSize)`. -/
def OTI.totalSymbols (o : OTI) : Nat :=
  (o.transferLength + o.symbolSize - 1) / o.symbolSize

/-- Modelled from the spec: the uniform per-block source-symbol count
`K = ceil(totalSymbols / Z)` given by the partitioning scheme (the
codec's parameter tables are not in the repository; the model uses the
uniform even split, which realises the spec's `K × symbolSize × Z ≥
transferLength` padding inequality). -/
def OTI.symbolsPerBlock (o : OTI) : Nat :=
  (o.totalSymbols + o.sourceBlockCount - 1) / o.sourceBlockCount

/-- Modelled from the spec: the number of repair symbols the reference
encoder emits per block (the encoder side is outside the repository;
the model encoder emits one parity repair symbol per block). -/
def repairCount : Nat := 1

/-- Modelled from the spec: the encoder's designed loss tolerance — the
number of symbols of one block that may be lost while the block stays
decodable.  With one parity repair symbol per block this is one symbol
per block. -/
def designedLossTolerance : Nat := repairCount

/-- Modelled from the spec: validity of an OTI value — transfer length
is positive and fits in 40 bits, symbol size is in `2 – 65535`, and
there is at least one source block. -/
def OTI.valid (o : OTI) : Prop :=
  1 ≤ o.transferLength ∧ o.transferLength ≤ 2 ^ 40 - 1 ∧
    2 ≤ o.symbolSize ∧ o.symbolSize ≤ 65535 ∧ 1 ≤ o.sourceBlockCount

instance (o : OTI) : Decidable o.valid := by
  unfold OTI.valid
  infer_instance

/-- Length of the internally padded object: `Z × K × symbolSize`. -/
def OTI.paddedLength (o : OTI) : Nat :=
  o.sourceBlockCount * o.symbolsPerBlock * o.symbolSize

/-- Modelled from the spec: an encoding symbol as delivered to the
decoder — block index and ESI (supplied out of band by the transport)
plus the `symbolSize`-byte payload. -/
structure Frame where
  blockIndex : Nat
  esi : Nat
  payload : List Byte
deriving Repr, DecidableEq

/-- Bytewise XOR of two byte strings (truncating to the shorter). -/
def xorBytes (a b : List Byte) : List Byte :=
  List.zipWith Nat.xor a b

/-- XOR of a list of byte strings, starting from `symbolSize` zero
bytes. -/
def xorAll (symbolSize : Nat) (l : List (List Byte)) : List Byte :=
  l.foldl xorBytes (List.replicate symbolSize 0)

/-- Modelled from the spec: the object padded with zero bytes to the
symbol-aligned length `Z × K × symbolSize`. -/
def padObject (o : OTI) (data : List Byte) : List Byte :=
  data ++ List.replicate (o.paddedLength - data.length) 0

/-- Modelled from the spec: source symbol `j` of block `b` — the `j`-th
`symbolSize`-byte chunk of block `b`'s slice of the padded object. -/
def sourceSymbol (o : OTI) (data : List Byte) (b j : Nat) : List Byte :=
  ((padObject o data).drop ((b * o.symbolsPerBlock + j) * o.symbolSize)).take o.symbolSize

/-- Modelled from the spec: the parity repair symbol of block `b`
emitted by the model reference encoder — the XOR of the block's `K`
source symbols. -/
def paritySymbol (o : OTI) (data : List Byte) (b : Nat) : List Byte :=
  xorAll o.symbolSize ((List.range o.symbolsPerBlock).map (sourceSymbol o data b))

/-- Modelled from the spec: payload of the encoding symbol with ESI `e`
of block `b`: source symbols have `ESI < K`, repair symbols `ESI ≥ K`. -/
def encodeSymbol (o : OTI) (data : List Byte) (b e : Nat) : List Byte :=
  if e < o.symbolsPerBlock then sourceSymbol o data b e else paritySymbol o data b

/-- Modelled from the spec: the full frame list a reference encoder
emits for an object — for every block, the `K` source symbols followed
by the repair symbols. -/
def encoderFrames (o : OTI) (data : List Byte) : List Frame :=
  ((List.range o.sourceBlockCount).map (fun b =>
    (List.range (o.symbolsPerBlock + repairCount)).map (fun e =>
      Frame.mk b e (encodeSymbol o data b e)))).flatten

/-- The error taxonomy of the spec. -/
inductive RQError where
  | FormatError
  | NotReadyError
  | AlreadyTakenError
  | MalformedSymbolError
deriving Repr, DecidableEq

/-- Lookup of the payload recorded for an ESI in a block's received
list. -/
def findEsi : List (Nat × List Byte) → Nat → Option (List Byte)
  | [], _ => none
  | (e', p) :: rest, e => if e' = e then some p else findEsi rest e

/-- Modelled from the spec: per-block decoder state — the received
symbols keyed by ESI (at most one entry per ESI) and, once solved, the
block's `K` reconstructed source symbols. -/
structure SourceBlockState where
  received : List (Nat × List Byte)
  solved : Option (List (List Byte))
deriving Repr, DecidableEq

/-- The empty per-block state. -/
def emptyBlock : SourceBlockState := ⟨[], none⟩

/-- The ESIs in `0 ≤ e < K` for which no symbol has been received. -/
def missingSources (K : Nat) (received : List (Nat × List Byte)) : List Nat :=
  (List.range K).filter (fun e => (findEsi received e).isNone)

/-- The payloads of the received source symbols, in ESI order. -/
def presentSources (K : Nat) (received : List (Nat × List Byte)) : List (List Byte) :=
  (List.range K).filterMap (findEsi received)

/-- Modelled from the spec: the per-block solver.  It is a
deterministic function of the received symbol set; it recovers the `K`
source symbols when they are all present, or when exactly one is
missing and the parity repair symbol (ESI `K`) is present (the missing
symbol is the XOR of the parity symbol with the present source
symbols); otherwise the block is not yet solvable and it returns
`none`. -/
def trySolve (K symbolSize : Nat) (received : List (Nat × List Byte)) :
    Option (List (List Byte)) :=
  match missingSources K received with
  | [] => some ((List.range K).map (fun e => (findEsi received e).getD []))
  | [m] =>
    match findEsi received K with
    | some par =>
      some ((List.range K).map (fun e =>
        if e = m then xorAll symbolSize (par :: presentSources K received)
        else (findEsi received e).getD []))
    | none => none
  | _ => none

/-- Modelled from the spec: record one symbol into a block and attempt
a solve — the symbol is dropped if its ESI is already present, and the
solver is invoked only if the block is not yet solved and at least `K`
distinct symbols have accumulated. -/
def ingestSymbol (K symbolSize : Nat) (st : SourceBlockState) (e : Nat) (p : List Byte) :
    SourceBlockState :=
  let received' := if (findEsi st.received e).isSome then st.received else (e, p) :: st.received
  let solved' :=
    if st.solved.isSome then st.solved
    else if K ≤ received'.length then trySolve K symbolSize received' else none
  ⟨received', solved'⟩

/-- Modelled from the spec: the decoder component of the context — the
per-block states, one per source block. -/
structure Decoder where
  blocks : List SourceBlockState
deriving Repr, DecidableEq

/-- The decoding context declared in `raptorq.h`: the OTI, the decoder,
and the optional result buffer (present exactly between completion and
extraction). -/
structure RQContext where
  oti : OTI
  decoder : Decoder
  result : Option (List Byte)
deriving Repr, DecidableEq

/-- A fresh context for an OTI: `Z` empty block states and no result. -/
def mkContext (o : OTI) : RQContext :=
  ⟨o, ⟨List.replicate o.sourceBlockCount emptyBlock⟩, none⟩

/-- `raptorq_ctx_is_complete`: every source block is solved. -/
def isComplete (ctx : RQContext) : Bool :=
  ctx.decoder.blocks.all (fun st => st.solved.isSome)

/-- Replace the block at an index by applying a function to it. -/
def updateBlock : List SourceBlockState → Nat → (SourceBlockState → SourceBlockState) →
    List SourceBlockState
  | [], _, _ => []
  | st :: rest, 0, g => g st :: rest
  | st :: rest, n + 1, g => st :: updateBlock rest n g

/-- Modelled from the spec: concatenate the solved blocks' source
symbols in index order and truncate to `transferLength`. -/
def assembleResult (o : OTI) (blocks : List SourceBlockState) : List Byte :=
  ((blocks.map (fun st => (st.solved.getD []).flatten)).flatten).take o.transferLength

/-- Modelled from the spec: symbol ingestion.  A payload of the wrong
length or an out-of-range block index or ESI is rejected with
`MalformedSymbolError` and the context is untouched.  Otherwise the
symbol is recorded into its block (duplicates are no-ops), the block's
solver may run, and the call reports `true` exactly when it causes the
whole context to become solved — at that transition the result buffer
is assembled and stored. -/
def push (ctx : RQContext) (f : Frame) : Except RQError Bool × RQContext :=
  if f.payload.length = ctx.oti.symbolSize ∧ f.blockIndex < ctx.oti.sourceBlockCount ∧
      f.esi < ctx.oti.symbolsPerBlock + repairCount then
    let wasComplete := isComplete ctx
    let blocks' := updateBlock ctx.decoder.blocks f.blockIndex
      (fun st => ingestSymbol ctx.oti.symbolsPerBlock ctx.oti.symbolSize st f.esi f.payload)
    let completedNow := !wasComplete && blocks'.all (fun st => st.solved.isSome)
    (Except.ok completedNow,
      ⟨ctx.oti, ⟨blocks'⟩,
        if completedNow then some (assembleResult ctx.oti blocks') else ctx.result⟩)
  else (Except.error RQError.MalformedSymbolError, ctx)

/-- `raptorq_ctx_push_frame`: the C-level wrapper returns a plain
boolean — `true` iff this call finished decoding the whole object; a
rejected symbol reports `false`. -/
def raptorq_ctx_push_frame (ctx : RQContext) (f : Frame) : Bool × RQContext :=
  match push ctx f with
  | (Except.ok b, ctx') => (b, ctx')
  | (Except.error _, ctx') => (false, ctx')

/-- Modelled from the spec: result extraction.  Fails with
`NotReadyError` while incomplete; on success moves the buffer out of
the context; a second extraction fails with `AlreadyTakenError`. -/
def takeResult (ctx : RQContext) : Except RQError (List Byte) × RQContext :=
  if isComplete ctx then
    match ctx.result with
    | some buf => (Except.ok buf, ⟨ctx.oti, ctx.decoder, none⟩)
    | none => (Except.error RQError.AlreadyTakenError, ctx)
  else (Except.error RQError.NotReadyError, ctx)

/-- `raptorq_ctx_take_result`: the C-level wrapper.  `lenOutIsNull`
models a `NULL` `len_out` argument; the middle component is the length
value written through `len_out` (`none` when nothing is written).  The
buffer is returned (non-`NULL`) exactly when extraction succeeds, and
the length is written only when `len_out` is non-`NULL`. -/
def raptorq_ctx_take_result (ctx : RQContext) (lenOutIsNull : Bool) :
    Option (List Byte) × Option Nat × RQContext :=
  match takeResult ctx with
  | (Except.ok buf, ctx') => (some buf, if lenOutIsNull then none else some buf.length, ctx')
  | (Except.error _, ctx') => (none, none, ctx')

/-- An operation a caller can perform on a live context. -/
inductive Op where
  | pushOp (f : Frame)
  | takeOp
deriving Repr, DecidableEq

/-- Apply one operation, keeping only the context. -/
def applyOp (ctx : RQContext) : Op → RQContext
  | Op.pushOp f => (push ctx f).2
  | Op.takeOp => (takeResult ctx).2

/-- Run a sequence of operations from a context. -/
def runOps (ctx : RQContext) (ops : List Op) : RQContext :=
  ops.foldl applyOp ctx

/-- Run a sequence of pushes from a context. -/
def runPush (ctx : RQContext) (fs : List Frame) : RQContext :=
  fs.foldl (fun c f => (push c f).2) ctx

/-- Modelled from the spec: a frame is consistent with an object when
its indices are in range and its payload is exactly what the reference
encoder emits for that `(blockIndex, esi)`. -/
def Frame.consistent (o : OTI) (data : List Byte) (f : Frame) : Prop :=
  f.blockIndex < o.sourceBlockCount ∧ f.esi < o.symbolsPerBlock + repairCount ∧
    f.payload = encodeSymbol o data f.blockIndex f.esi

instance (o : OTI) (data : List Byte) (f : Frame) : Decidable (f.consistent o data) := by
  unfold Frame.consistent
  infer_instance

/-- Whether a frame with identity `(b, e)` occurs in a frame list. -/
def idMem (L : List Frame) (b e : Nat) : Bool :=
  L.any (fun f => f.blockIndex = b && f.esi = e)

/-- The source ESIs of block `b` not covered by a frame list. -/
def missingOf (o : OTI) (L : List Frame) (b : Nat) : List Nat :=
  (List.range o.symbolsPerBlock).filter (fun e => !(idMem L b e))

/-- Whether block `b` is solvable from the identities in a frame list:
no source symbol missing, or exactly one missing and the parity symbol
present. -/
def solvableIds (o : OTI) (L : List Frame) (b : Nat) : Bool :=
  (missingOf o L b).length = 0 ||
    ((missingOf o L b).length = 1 && idMem L b o.symbolsPerBlock)

/-- The true source symbols of block `b`, as the solver must produce
them. -/
def trueSources (o : OTI) (data : List Byte) (b : Nat) : List (List Byte) :=
  (List.range o.symbolsPerBlock).map (sourceSymbol o data b)

/-- The encoder symbols of block `b` (source and repair) that do not
appear in a frame list: the symbols lost in transit. -/
def lostSymbols (o : OTI) (L : List Frame) (b : Nat) : List Nat :=
  (List.range (o.symbolsPerBlock + repairCount)).filter (fun e => !(idMem L b e))

/-- Characterisation of every context state reachable by pushing the
consistent frame list `L` into a fresh context: each block's received
set mirrors the identities occurring in `L`, its payloads are the
encoder's, its solved field holds the true source symbols exactly when
the identity set makes it solvable, and the result is present exactly
when every block is solvable. -/
def Good (o : OTI) (data : List Byte) (L : List Frame) (ctx : RQContext) : Prop :=
  ctx.oti = o ∧
  ctx.decoder.blocks.length = o.sourceBlockCount ∧
  (∀ b, b < o.sourceBlockCount →
    ((ctx.decoder.blocks.getD b emptyBlock).received.map Prod.fst).Nodup ∧
    (∀ e : Nat, (findEsi (ctx.decoder.blocks.getD b emptyBlock).received e).isSome =
      idMem L b e) ∧
    (∀ pr ∈ (ctx.decoder.blocks.getD b emptyBlock).received,
      pr.1 < o.symbolsPerBlock + repairCount ∧ pr.2 = encodeSymbol o data b pr.1) ∧
    (ctx.decoder.blocks.getD b emptyBlock).solved =
      (if solvableIds o L b then some (trueSources o data b) else none)) ∧
  ctx.result =
    (if (List.range o.sourceBlockCount).all (solvableIds o L) then some data else none)

/-- Well-formedness of a context reachable from a fresh context by
arbitrary operations: recorded payloads have symbol size, solved blocks
hold `K` symbols of symbol size, and a present result has transfer
length. -/
def WFCtx (o : OTI) (ctx : RQContext) : Prop :=
  ctx.oti = o ∧
  ctx.decoder.blocks.length = o.sourceBlockCount ∧
  (∀ b, b < o.sourceBlockCount →
    (∀ pr ∈ (ctx.decoder.blocks.getD b emptyBlock).received,
      pr.1 < o.symbolsPerBlock + repairCount ∧ pr.2.length = o.symbolSize) ∧
    (∀ ss, (ctx.decoder.blocks.getD b emptyBlock).solved = some ss →
      ss.length = o.symbolsPerBlock ∧ ∀ s ∈ ss, s.length = o.symbolSize)) ∧
  (∀ buf, ctx.result = some buf → buf.length = o.transferLength)

/-- In every reachable context an unsolved block has either fewer than
`K` symbols or a received set the solver has already failed on: a
duplicate push can never flip it to solved. -/
def NoPendingSolve (o : OTI) (ctx : RQContext) : Prop :=
  ∀ b, b < o.sourceBlockCount →
    (ctx.decoder.blocks.getD b emptyBlock).solved = none →
    ((ctx.decoder.blocks.getD b emptyBlock).received.length < o.symbolsPerBlock ∨
      trySolve o.symbolsPerBlock o.symbolSize
        (ctx.decoder.blocks.getD b emptyBlock).received = none)

end RaptorQ

namespace RaptorQ

/-! ### XOR algebra -/

theorem xorBytes_length (a b : List Byte) : (xorBytes a b).length = min a.length b.length := by
  simp [xorBytes]

theorem xorBytes_assoc (a b c : List Byte) :
    xorBytes (xorBytes a b) c = xorBytes a (xorBytes b c) := by
  induction a generalizing b c with
  | nil => simp [xorBytes]
  | cons x xs ih =>
    cases b with
    | nil => simp [xorBytes]
    | cons y ys =>
      cases c with
      | nil => simp [xorBytes]
      | cons z zs =>
        simp only [xorBytes, List.zipWith_cons_cons] at ih ⊢
        exact congrArg₂ List.cons (Nat.xor_assoc x y z) (ih ys zs)

theorem xorBytes_comm (a b : List Byte) : xorBytes a b = xorBytes b a := by
  induction a generalizing b with
  | nil => cases b <;> simp [xorBytes]
  | cons x xs ih =>
    cases b with
    | nil => simp [xorBytes]
    | cons y ys =>
      simp only [xorBytes, List.zipWith_cons_cons] at ih ⊢
      exact congrArg₂ List.cons (Nat.xor_comm x y) (ih ys)

instance : Std.Associative xorBytes := ⟨xorBytes_assoc⟩

instance : RightCommutative xorBytes :=
  ⟨fun b a₁ a₂ => by
    rw [xorBytes_assoc, xorBytes_assoc, xorBytes_comm a₁ a₂]⟩

theorem zeros_xorBytes (n : Nat) (a : List Byte) :
    xorBytes (List.replicate n 0) a = a.take n := by
  induction n generalizing a with
  | zero => simp [xorBytes]
  | succ n ih =>
    cases a with
    | nil => simp [xorBytes]
    | cons x xs =>
      simp only [List.replicate_succ, xorBytes, List.zipWith_cons_cons, List.take_succ_cons] at ih ⊢
      exact congrArg₂ List.cons (Nat.zero_xor x) (ih xs)

theorem xorBytes_zeros (a : List Byte) (n : Nat) :
    xorBytes a (List.replicate n 0) = a.take n := by
  rw [xorBytes_comm]
  exact zeros_xorBytes n a

theorem xorBytes_zeros_self (a : List Byte) :
    xorBytes a (List.replicate a.length 0) = a := by
  rw [xorBytes_zeros]
  exact List.take_length a

theorem xorBytes_self (a : List Byte) : xorBytes a a = List.replicate a.length 0 := by
  induction a with
  | nil => simp [xorBytes]
  | cons x xs ih =>
    simp only [xorBytes, List.zipWith_cons_cons, List.length_cons, List.replicate_succ] at ih ⊢
    exact congrArg₂ List.cons (Nat.xor_self x) ih

theorem xorAll_nil (n : Nat) : xorAll n [] = List.replicate n 0 := rfl

theorem xorAll_cons (n : Nat) (a : List Byte) (l : List (List Byte)) (h : a.length = n) :
    xorAll n (a :: l) = xorBytes a (xorAll n l) := by
  unfold xorAll
  rw [List.foldl_cons]
  have h0 : xorBytes (List.replicate n 0) a = a := by
    rw [zeros_xorBytes]
    exact List.take_of_length_le (le_of_eq h)
  rw [h0, ← @List.foldl_assoc _ xorBytes _ l a (List.replicate n 0), xorBytes_zeros,
    List.take_of_length_le (le_of_eq h)]

theorem foldl_xorBytes_length (n : Nat) :
    ∀ (l : List (List Byte)) (acc : List Byte), acc.length = n →
      (∀ a ∈ l, a.length = n) → (l.foldl xorBytes acc).length = n := by
  intro l
  induction l with
  | nil =>
    intro acc h _
    simpa using h
  | cons a rest ih =>
    intro acc hacc hl
    rw [List.foldl_cons]
    refine ih (xorBytes acc a) ?_ (fun x hx => hl x (List.mem_cons_of_mem a hx))
    rw [xorBytes_length, hacc, hl a (List.mem_cons_self a rest)]
    simp

theorem xorAll_length (n : Nat) (l : List (List Byte)) (h : ∀ a ∈ l, a.length = n) :
    (xorAll n l).length = n :=
  foldl_xorBytes_length n l _ (by simp) h

theorem xorAll_perm (n : Nat) {l₁ l₂ : List (List Byte)} (h : l₁.Perm l₂) :
    xorAll n l₁ = xorAll n l₂ :=
  h.foldl_eq _

/-- The key cancellation fact: for `m < K`, XOR-ing the parity of all
`K` values with the values at the other indices recovers the value at
`m`. -/
theorem xor_cancel (n K m : Nat) (g : Nat → List Byte) (hm : m < K)
    (hg : ∀ j, j < K → (g j).length = n) :
    xorBytes (xorAll n ((List.range K).map g))
      (xorAll n (((List.range K).filter (fun e => e != m)).map g)) = g m := by
  have hmem : m ∈ List.range K := List.mem_range.mpr hm
  have hperm : (List.range K).Perm (m :: (List.range K).erase m) :=
    List.perm_cons_erase hmem
  have herase : (List.range K).erase m = (List.range K).filter (fun e => e != m) :=
    (List.nodup_range K).erase_eq_filter m
  have h1 : xorAll n ((List.range K).map g) =
      xorBytes (g m) (xorAll n (((List.range K).filter (fun e => e != m)).map g)) := by
    rw [xorAll_perm n (List.Perm.map g hperm), List.map_cons,
      xorAll_cons n _ _ (hg m hm), herase]
  rw [h1, xorBytes_assoc]
  have hX : (xorAll n (((List.range K).filter (fun e => e != m)).map g)).length = n := by
    apply xorAll_length
    intro a ha
    obtain ⟨j, hj, rfl⟩ := List.mem_map.mp ha
    exact hg j (List.mem_range.mp (List.mem_filter.mp hj).1)
  have h2 : xorBytes (xorAll n (((List.range K).filter (fun e => e != m)).map g))
      (xorAll n (((List.range K).filter (fun e => e != m)).map g)) = List.replicate n 0 := by
    rw [xorBytes_self, hX]
  rw [h2, ← hg m hm]
  exact xorBytes_zeros_self (g m)

/-! ### Generic list lemmas -/

theorem findEsi_mem {l : List (Nat × List Byte)} {e : Nat} {p : List Byte}
    (h : findEsi l e = some p) : (e, p) ∈ l := by
  induction l with
  | nil => simp [findEsi] at h
  | cons hd tl ih =>
    obtain ⟨e', p'⟩ := hd
    by_cases he : e' = e
    · subst he
      simp [findEsi] at h
      simp [h]
    · simp [findEsi, he] at h
      exact List.mem_cons_of_mem _ (ih h)

theorem length_updateBlock (l : List SourceBlockState) (n : Nat)
    (g : SourceBlockState → SourceBlockState) : (updateBlock l n g).length = l.length := by
  induction l generalizing n with
  | nil => rfl
  | cons hd tl ih =>
    cases n with
    | zero => rfl
    | succ n => simpa [updateBlock] using ih n

theorem getD_updateBlock_eq (l : List SourceBlockState) (n : Nat)
    (g : SourceBlockState → SourceBlockState) (d : SourceBlockState) (h : n < l.length) :
    (updateBlock l n g).getD n d = g (l.getD n d) := by
  induction l generalizing n with
  | nil => simp at h
  | cons hd tl ih =>
    cases n with
    | zero => rfl
    | succ n => simpa [updateBlock] using ih n (by simpa using h)

theorem getD_updateBlock_ne (l : List SourceBlockState) (n m : Nat)
    (g : SourceBlockState → SourceBlockState) (d : SourceBlockState) (h : m ≠ n) :
    (updateBlock l n g).getD m d = l.getD m d := by
  induction l generalizing n m with
  | nil => cases n <;> rfl
  | cons hd tl ih =>
    cases n with
    | zero =>
      cases m with
      | zero => exact absurd rfl h
      | succ m => rfl
    | succ n =>
      cases m with
      | zero => rfl
      | succ m => simpa [updateBlock] using ih n m (by omega)

theorem all_iff_getD (l : List SourceBlockState) (p : SourceBlockState → Bool)
    (d : SourceBlockState) :
    l.all p = true ↔ ∀ i < l.length, p (l.getD i d) = true := by
  induction l with
  | nil => simp
  | cons hd tl ih =>
    simp only [List.all_cons, Bool.and_eq_true, ih, List.length_cons]
    constructor
    · rintro ⟨h0, h⟩ i hi
      cases i with
      | zero => exact h0
      | succ i => exact h i (by omega)
    · intro h
      exact ⟨h 0 (by omega), fun i hi => h (i + 1) (by omega)⟩

theorem map_eq_range_map {α β : Type} (l : List α) (f : α → β) (d : α) :
    l.map f = (List.range l.length).map (fun i => f (l.getD i d)) := by
  induction l with
  | nil => rfl
  | cons hd tl ih =>
    rw [List.map_cons, List.length_cons, List.range_succ_eq_map, List.map_cons,
      List.map_map]
    refine congrArg₂ List.cons rfl ?_
    rw [ih]
    apply List.map_congr_left
    intro i _
    rfl

theorem filterMap_eq_map_filter {α β : Type} (l : List α) (f : α → Option β) (p : α → Bool)
    (g : α → β) (h : ∀ a ∈ l, f a = if p a then some (g a) else none) :
    l.filterMap f = (l.filter p).map g := by
  induction l with
  | nil => rfl
  | cons hd tl ih =>
    have hhd := h hd (List.mem_cons_self hd tl)
    have htl := ih (fun a ha => h a (List.mem_cons_of_mem hd ha))
    by_cases hp : p hd = true
    · rw [List.filterMap_cons, hhd, hp, List.filter_cons_of_pos hp, List.map_cons, if_pos rfl]
      exact congrArg₂ List.cons rfl htl
    · rw [List.filterMap_cons, hhd, List.filter_cons_of_neg hp]
      simp only [Bool.not_eq_true] at hp
      rw [hp]
      exact htl

theorem length_filter_le_of_imp {α : Type} (l : List α) (p q : α → Bool)
    (h : ∀ a ∈ l, p a = true → q a = true) :
    (l.filter p).length ≤ (l.filter q).length := by
  induction l with
  | nil => simp
  | cons hd tl ih =>
    have htl := ih (fun a ha => h a (List.mem_cons_of_mem hd ha))
    by_cases hp : p hd = true
    · rw [List.filter_cons_of_pos hp, List.filter_cons_of_pos (h hd (by simp) hp)]
      simpa using htl
    · rw [List.filter_cons_of_neg hp]
      by_cases hq : q hd = true
      · rw [List.filter_cons_of_pos hq]
        exact le_trans htl (by simp)
      · rw [List.filter_cons_of_neg hq]
        exact htl

/-! ### Chunking and reassembly -/

theorem chunks_flatten (s : Nat) :
    ∀ (n : Nat) (l : List Byte), l.length = n * s →
      ((List.range n).map (fun i => (l.drop (i * s)).take s)).flatten = l := by
  intro n
  induction n with
  | zero =>
    intro l hl
    simp at hl
    simp [hl]
  | succ n ih =>
    intro l hl
    rw [List.range_succ_eq_map, List.map_cons, List.map_map, List.flatten_cons]
    have htl : ∀ i : Nat, ((fun i => (l.drop (i * s)).take s) ∘ Nat.succ) i =
        (fun i => ((l.drop s).drop (i * s)).take s) i := by
      intro i
      simp only [Function.comp]
      rw [List.drop_drop]
      congr 1
      simp only [Nat.succ_eq_add_one]
      ring_nf
    have hdl : (l.drop s).length = n * s := by
      rw [List.length_drop, hl]
      have hns : (n + 1) * s = n * s + s := by ring
      omega
    rw [List.map_congr_left (fun i _ => htl i), ih (l.drop s) hdl]
    simp

theorem ceil_le_mul (a b : Nat) (hb : 0 < b) : a ≤ ((a + b - 1) / b) * b := by
  have h1 := Nat.div_add_mod (a + b - 1) b
  have h2 := Nat.mod_lt (a + b - 1) hb
  rw [Nat.mul_comm]
  omega

/-! ### OTI arithmetic -/

theorem totalSymbols_pos (o : OTI) (h : o.valid) : 1 ≤ o.totalSymbols := by
  obtain ⟨h1, _, h3, _, _⟩ := h
  have hs : 0 < o.symbolSize := by omega
  rw [OTI.totalSymbols, Nat.le_div_iff_mul_le hs]
  omega

theorem symbolsPerBlock_pos (o : OTI) (h : o.valid) : 1 ≤ o.symbolsPerBlock := by
  have ht := totalSymbols_pos o h
  obtain ⟨_, _, _, _, h5⟩ := h
  have hz : 0 < o.sourceBlockCount := by omega
  rw [OTI.symbolsPerBlock, Nat.le_div_iff_mul_le hz]
  omega

theorem transferLength_le_paddedLength (o : OTI) (h : o.valid) :
    o.transferLength ≤ o.paddedLength := by
  obtain ⟨_, _, h3, _, h5⟩ := h
  have hs : 0 < o.symbolSize := by omega
  have hz : 0 < o.sourceBlockCount := by omega
  have h1 : o.transferLength ≤ o.totalSymbols * o.symbolSize :=
    ceil_le_mul o.transferLength o.symbolSize hs
  have h2 : o.totalSymbols ≤ o.symbolsPerBlock * o.sourceBlockCount :=
    ceil_le_mul o.totalSymbols o.sourceBlockCount hz
  calc o.transferLength ≤ o.totalSymbols * o.symbolSize := h1
    _ ≤ o.symbolsPerBlock * o.sourceBlockCount * o.symbolSize :=
      Nat.mul_le_mul_right _ h2
    _ = o.paddedLength := by rw [OTI.paddedLength]; ring

theorem padObject_length (o : OTI) (data : List Byte) (h : data.length ≤ o.paddedLength) :
    (padObject o data).length = o.paddedLength := by
  rw [padObject, List.length_append, List.length_replicate]
  omega

theorem sourceSymbol_length (o : OTI) (data : List Byte) (b j : Nat) (ho : o.valid)
    (hd : data.length = o.transferLength) (hb : b < o.sourceBlockCount)
    (hj : j < o.symbolsPerBlock) : (sourceSymbol o data b j).length = o.symbolSize := by
  have hpad : (padObject o data).length = o.paddedLength :=
    padObject_length o data (hd ▸ transferLength_le_paddedLength o ho)
  rw [sourceSymbol, List.length_take, List.length_drop, hpad]
  have hle : (b * o.symbolsPerBlock + j + 1) * o.symbolSize ≤ o.paddedLength := by
    rw [OTI.paddedLength]
    have h1 : b * o.symbolsPerBlock + j + 1 ≤ o.sourceBlockCount * o.symbolsPerBlock := by
      have h2 : b * o.symbolsPerBlock + j + 1 ≤ (b + 1) * o.symbolsPerBlock := by
        have : (b + 1) * o.symbolsPerBlock = b * o.symbolsPerBlock + o.symbolsPerBlock := by
          ring
        omega
      have h3 : (b + 1) * o.symbolsPerBlock ≤ o.sourceBlockCount * o.symbolsPerBlock :=
        Nat.mul_le_mul_right _ (by omega)
      omega
    exact le_trans (Nat.mul_le_mul_right _ h1) (le_of_eq (by ring))
  have : (b * o.symbolsPerBlock + j + 1) * o.symbolSize =
      (b * o.symbolsPerBlock + j) * o.symbolSize + o.symbolSize := by ring
  omega

theorem paritySymbol_length (o : OTI) (data : List Byte) (b : Nat) (ho : o.valid)
    (hd : data.length = o.transferLength) (hb : b < o.sourceBlockCount) :
    (paritySymbol o data b).length = o.symbolSize := by
  rw [paritySymbol]
  apply xorAll_length
  intro a ha
  obtain ⟨j, hj, rfl⟩ := List.mem_map.mp ha
  exact sourceSymbol_length o data b j ho hd hb (List.mem_range.mp hj)

theorem encodeSymbol_length (o : OTI) (data : List Byte) (b e : Nat) (ho : o.valid)
    (hd : data.length = o.transferLength) (hb : b < o.sourceBlockCount) :
    (encodeSymbol o data b e).length = o.symbolSize := by
  rw [encodeSymbol]
  by_cases he : e < o.symbolsPerBlock
  · rw [if_pos he]
    exact sourceSymbol_length o data b e ho hd hb he
  · rw [if_neg he]
    exact paritySymbol_length o data b ho hd hb

/-! ### Reassembly: concatenating true sources gives back the object -/

theorem trueSources_flatten (o : OTI) (data : List Byte) (b : Nat) (ho : o.valid)
    (hd : data.length = o.transferLength) (hb : b < o.sourceBlockCount) :
    (trueSources o data b).flatten =
      ((padObject o data).drop (b * (o.symbolsPerBlock * o.symbolSize))).take
        (o.symbolsPerBlock * o.symbolSize) := by
  have hpad : (padObject o data).length = o.paddedLength :=
    padObject_length o data (hd ▸ transferLength_le_paddedLength o ho)
  have hblen : (((padObject o data).drop (b * (o.symbolsPerBlock * o.symbolSize))).take
      (o.symbolsPerBlock * o.symbolSize)).length = o.symbolsPerBlock * o.symbolSize := by
    rw [List.length_take, List.length_drop, hpad, OTI.paddedLength]
    have h1 : (b + 1) * (o.symbolsPerBlock * o.symbolSize) ≤
        o.sourceBlockCount * (o.symbolsPerBlock * o.symbolSize) :=
      Nat.mul_le_mul_right _ (by omega)
    have h2 : (b + 1) * (o.symbolsPerBlock * o.symbolSize) =
        b * (o.symbolsPerBlock * o.symbolSize) + o.symbolsPerBlock * o.symbolSize := by ring
    have h3 : o.sourceBlockCount * o.symbolsPerBlock * o.symbolSize =
        o.sourceBlockCount * (o.symbolsPerBlock * o.symbolSize) := by ring
    omega
  rw [trueSources]
  have hcongr : ∀ j ∈ List.range o.symbolsPerBlock, sourceSymbol o data b j =
      ((((padObject o data).drop (b * (o.symbolsPerBlock * o.symbolSize))).take
        (o.symbolsPerBlock * o.symbolSize)).drop (j * o.symbolSize)).take o.symbolSize := by
    intro j hj
    have hjK := List.mem_range.mp hj
    rw [List.drop_take, List.drop_drop, List.take_take]
    have hmin : min o.symbolSize (o.symbolsPerBlock * o.symbolSize - j * o.symbolSize) =
        o.symbolSize := by
      have h4 : (j + 1) * o.symbolSize ≤ o.symbolsPerBlock * o.symbolSize :=
        Nat.mul_le_mul_right _ (by omega)
      have h5 : (j + 1) * o.symbolSize = j * o.symbolSize + o.symbolSize := by ring
      omega
    rw [hmin, sourceSymbol]
    congr 2
    ring
  rw [List.map_congr_left hcongr]
  exact chunks_flatten o.symbolSize o.symbolsPerBlock _ hblen

theorem blocks_flatten (o : OTI) (data : List Byte) (ho : o.valid)
    (hd : data.length = o.transferLength) :
    ((List.range o.sourceBlockCount).map
      (fun b => (trueSources o data b).flatten)).flatten = padObject o data := by
  have hpad : (padObject o data).length = o.paddedLength :=
    padObject_length o data (hd ▸ transferLength_le_paddedLength o ho)
  have hcongr : ∀ b ∈ List.range o.sourceBlockCount, (trueSources o data b).flatten =
      ((padObject o data).drop (b * (o.symbolsPerBlock * o.symbolSize))).take
        (o.symbolsPerBlock * o.symbolSize) := by
    intro b hb
    exact trueSources_flatten o data b ho hd (List.mem_range.mp hb)
  rw [List.map_congr_left hcongr]
  apply chunks_flatten (o.symbolsPerBlock * o.symbolSize) o.sourceBlockCount
  rw [hpad, OTI.paddedLength]
  ring

theorem assembleResult_eq_data (o : OTI) (data : List Byte) (blocks : List SourceBlockState)
    (ho : o.valid) (hd : data.length = o.transferLength)
    (hlen : blocks.length = o.sourceBlockCount)
    (hsol : ∀ b, b < o.sourceBlockCount →
      (blocks.getD b emptyBlock).solved = some (trueSources o data b)) :
    assembleResult o blocks = data := by
  rw [assembleResult]
  have hmap : blocks.map (fun st => (st.solved.getD []).flatten) =
      (List.range o.sourceBlockCount).map (fun b => (trueSources o data b).flatten) := by
    rw [map_eq_range_map blocks _ emptyBlock, hlen]
    apply List.map_congr_left
    intro b hb
    rw [hsol b (List.mem_range.mp hb)]
    rfl
  rw [hmap, blocks_flatten o data ho hd, padObject, ← hd, List.take_left]

/-! ### Lookup lemmas -/

theorem findEsi_eq_none_iff (l : List (Nat × List Byte)) (e : Nat) :
    findEsi l e = none ↔ e ∉ l.map Prod.fst := by
  induction l with
  | nil => simp [findEsi]
  | cons hd tl ih =>
    obtain ⟨e', p'⟩ := hd
    by_cases he : e' = e
    · subst he
      simp [findEsi]
    · simp [findEsi, he, ih, Ne.symm he]

theorem findEsi_isSome_iff_mem (l : List (Nat × List Byte)) (e : Nat) :
    (findEsi l e).isSome = true ↔ e ∈ l.map Prod.fst := by
  rw [← Decidable.not_iff_not, Bool.not_eq_true, Option.not_isSome,
    Option.isNone_iff_eq_none, findEsi_eq_none_iff]

theorem findEsi_consistent (o : OTI) (data : List Byte) (b : Nat)
    (received : List (Nat × List Byte))
    (hcons : ∀ pr ∈ received, pr.2 = encodeSymbol o data b pr.1) {e : Nat} {p : List Byte}
    (h : findEsi received e = some p) : p = encodeSymbol o data b e :=
  hcons (e, p) (findEsi_mem h)

/-! ### Solver correctness -/

theorem trySolve_complete (o : OTI) (data : List Byte) (b : Nat)
    (received : List (Nat × List Byte))
    (hcons : ∀ pr ∈ received, pr.2 = encodeSymbol o data b pr.1)
    (hms : missingSources o.symbolsPerBlock received = []) :
    trySolve o.symbolsPerBlock o.symbolSize received = some (trueSources o data b) := by
  unfold trySolve
  rw [hms]
  show some ((List.range o.symbolsPerBlock).map (fun e => (findEsi received e).getD [])) =
    some (trueSources o data b)
  rw [trueSources]
  congr 1
  apply List.map_congr_left
  intro e he
  have heK := List.mem_range.mp he
  have hpres : ¬ (findEsi received e).isNone = true := by
    intro hnone
    have : e ∈ missingSources o.symbolsPerBlock received :=
      List.mem_filter.mpr ⟨he, hnone⟩
    rw [hms] at this
    simp at this
  cases hfind : findEsi received e with
  | none => rw [hfind] at hpres; simp at hpres
  | some p =>
    have hp := findEsi_consistent o data b received hcons hfind
    rw [Option.getD_some, hp, encodeSymbol, if_pos heK]

theorem trySolve_missing_one (o : OTI) (data : List Byte) (b m : Nat)
    (received : List (Nat × List Byte)) (ho : o.valid)
    (hd : data.length = o.transferLength) (hb : b < o.sourceBlockCount)
    (hcons : ∀ pr ∈ received, pr.2 = encodeSymbol o data b pr.1)
    (hms : missingSources o.symbolsPerBlock received = [m])
    (hpar : (findEsi received o.symbolsPerBlock).isSome = true) :
    trySolve o.symbolsPerBlock o.symbolSize received = some (trueSources o data b) := by
  obtain ⟨par, hpar'⟩ := Option.isSome_iff_exists.mp hpar
  have hmmem : m ∈ missingSources o.symbolsPerBlock received := by
    rw [hms]
    simp
  have hmK : m < o.symbolsPerBlock :=
    List.mem_range.mp (List.mem_filter.mp hmmem).1
  have hmNone : findEsi received m = none := by
    have := (List.mem_filter.mp hmmem).2
    simpa [Option.isNone_iff_eq_none] using this
  have hpres : ∀ e, e < o.symbolsPerBlock → e ≠ m → (findEsi received e).isSome = true := by
    intro e heK hem
    by_contra hno
    have : e ∈ missingSources o.symbolsPerBlock received := by
      refine List.mem_filter.mpr ⟨List.mem_range.mpr heK, ?_⟩
      cases hfe : findEsi received e with
      | none => simp
      | some p =>
        rw [hfe] at hno
        simp at hno
    rw [hms] at this
    simp at this
    exact hem this
  have hparval : par = paritySymbol o data b := by
    have := findEsi_consistent o data b received hcons hpar'
    rw [this, encodeSymbol, if_neg (by omega)]
  have hsrc : presentSources o.symbolsPerBlock received =
      ((List.range o.symbolsPerBlock).filter (fun e => e != m)).map (sourceSymbol o data b) := by
    rw [presentSources]
    apply filterMap_eq_map_filter
    intro e he
    have heK := List.mem_range.mp he
    by_cases hem : e = m
    · subst hem
      simp only [bne_self_eq_false, Bool.false_eq_true, if_false]
      exact hmNone
    · have hsome := hpres e heK hem
      obtain ⟨p, hp⟩ := Option.isSome_iff_exists.mp hsome
      have hval := findEsi_consistent o data b received hcons hp
      rw [hp, hval, encodeSymbol, if_pos heK, if_pos (by simp [hem])]
  unfold trySolve
  rw [hms, hpar']
  show some ((List.range o.symbolsPerBlock).map (fun e =>
      if e = m then xorAll o.symbolSize (par :: presentSources o.symbolsPerBlock received)
      else (findEsi received e).getD [])) = some (trueSources o data b)
  rw [trueSources]
  congr 1
  apply List.map_congr_left
  intro e he
  have heK := List.mem_range.mp he
  by_cases hem : e = m
  · subst hem
    rw [if_pos rfl, hsrc, hparval]
    rw [xorAll_cons _ _ _ (paritySymbol_length o data b ho hd hb), paritySymbol]
    exact xor_cancel o.symbolSize o.symbolsPerBlock e (sourceSymbol o data b) heK
      (fun j hj => sourceSymbol_length o data b j ho hd hb hj)
  · rw [if_neg hem]
    obtain ⟨p, hp⟩ := Option.isSome_iff_exists.mp (hpres e heK hem)
    have hval := findEsi_consistent o data b received hcons hp
    rw [hp, Option.getD_some, hval, encodeSymbol, if_pos heK]

theorem trySolve_none (K s : Nat) (received : List (Nat × List Byte))
    (h : ¬(missingSources K received = [] ∨
      (∃ m, missingSources K received = [m] ∧ (findEsi received K).isSome = true))) :
    trySolve K s received = none := by
  cases hms : missingSources K received with
  | nil => exact absurd (Or.inl hms) h
  | cons m t =>
    cases t with
    | nil =>
      cases hp : findEsi received K with
      | none =>
        unfold trySolve
        rw [hms, hp]
      | some par =>
        exact absurd (Or.inr ⟨m, hms, by rw [hp]; rfl⟩) h
    | cons m2 t2 =>
      unfold trySolve
      rw [hms]

theorem presentSources_mem (K : Nat) (received : List (Nat × List Byte)) (s : List Byte)
    (h : s ∈ presentSources K received) : ∃ e, findEsi received e = some s := by
  rw [presentSources] at h
  obtain ⟨e, _, he⟩ := List.mem_filterMap.mp h
  exact ⟨e, he⟩

theorem trySolve_lengths (K s : Nat) (received : List (Nat × List Byte))
    (ss : List (List Byte)) (hrec : ∀ pr ∈ received, pr.2.length = s)
    (h : trySolve K s received = some ss) :
    ss.length = K ∧ ∀ x ∈ ss, x.length = s := by
  have hfind : ∀ e p, findEsi received e = some p → p.length = s := by
    intro e p hp
    exact hrec (e, p) (findEsi_mem hp)
  cases hms : missingSources K received with
  | nil =>
    unfold trySolve at h
    rw [hms] at h
    obtain rfl : (List.range K).map (fun e => (findEsi received e).getD []) = ss :=
      Option.some_injective _ h
    refine ⟨by simp, ?_⟩
    intro x hx
    obtain ⟨e, he, rfl⟩ := List.mem_map.mp hx
    have hpres : ¬ (findEsi received e).isNone = true := by
      intro hnone
      have : e ∈ missingSources K received := List.mem_filter.mpr ⟨he, hnone⟩
      rw [hms] at this
      simp at this
    cases hfe : findEsi received e with
    | none => rw [hfe] at hpres; simp at hpres
    | some p => simp only [Option.getD_some]; exact hfind e p hfe
  | cons m t =>
    cases t with
    | nil =>
      cases hp : findEsi received K with
      | none =>
        unfold trySolve at h
        rw [hms, hp] at h
        exact absurd h (by simp)
      | some par =>
        unfold trySolve at h
        rw [hms, hp] at h
        obtain rfl := Option.some_injective _ h
        refine ⟨by simp, ?_⟩
        intro x hx
        obtain ⟨e, he, rfl⟩ := List.mem_map.mp hx
        by_cases hem : e = m
        · rw [if_pos hem]
          apply xorAll_length
          intro a ha
          rcases List.mem_cons.mp ha with rfl | ha'
          · exact hfind K a hp
          · obtain ⟨e', he'⟩ := presentSources_mem K received a ha'
            exact hfind e' a he'
        · rw [if_neg hem]
          have hpres : ¬ (findEsi received e).isNone = true := by
            intro hnone
            have hmem : e ∈ missingSources K received :=
              List.mem_filter.mpr ⟨he, hnone⟩
            rw [hms] at hmem
            simp at hmem
            exact hem hmem
          cases hfe : findEsi received e with
          | none => rw [hfe] at hpres; simp at hpres
          | some p => simp only [Option.getD_some]; exact hfind e p hfe
    | cons m2 t2 =>
      unfold trySolve at h
      rw [hms] at h
      exact absurd h (by simp)

/-! ### Operation equations -/

theorem push_valid_eq (ctx : RQContext) (f : Frame)
    (hg : f.payload.length = ctx.oti.symbolSize ∧ f.blockIndex < ctx.oti.sourceBlockCount ∧
      f.esi < ctx.oti.symbolsPerBlock + repairCount) :
    push ctx f =
      (Except.ok (!isComplete ctx &&
        ((updateBlock ctx.decoder.blocks f.blockIndex
          (fun st => ingestSymbol ctx.oti.symbolsPerBlock ctx.oti.symbolSize st f.esi
            f.payload)).all (fun st => st.solved.isSome))),
        ⟨ctx.oti,
          ⟨updateBlock ctx.decoder.blocks f.blockIndex
            (fun st => ingestSymbol ctx.oti.symbolsPerBlock ctx.oti.symbolSize st f.esi
              f.payload)⟩,
          if (!isComplete ctx &&
              ((updateBlock ctx.decoder.blocks f.blockIndex
                (fun st => ingestSymbol ctx.oti.symbolsPerBlock ctx.oti.symbolSize st f.esi
                  f.payload)).all (fun st => st.solved.isSome)))
          then some (assembleResult ctx.oti
            (updateBlock ctx.decoder.blocks f.blockIndex
              (fun st => ingestSymbol ctx.oti.symbolsPerBlock ctx.oti.symbolSize st f.esi
                f.payload)))
          else ctx.result⟩) := by
  unfold push
  rw [if_pos hg]

theorem push_malformed_eq (ctx : RQContext) (f : Frame)
    (hg : ¬(f.payload.length = ctx.oti.symbolSize ∧ f.blockIndex < ctx.oti.sourceBlockCount ∧
      f.esi < ctx.oti.symbolsPerBlock + repairCount)) :
    push ctx f = (Except.error RQError.MalformedSymbolError, ctx) := by
  unfold push
  rw [if_neg hg]

theorem ingestSymbol_eq (K s : Nat) (st : SourceBlockState) (e : Nat) (p : List Byte) :
    ingestSymbol K s st e p =
      ⟨if (findEsi st.received e).isSome then st.received else (e, p) :: st.received,
        if st.solved.isSome then st.solved
        else if K ≤ (if (findEsi st.received e).isSome then st.received
            else (e, p) :: st.received).length
          then trySolve K s (if (findEsi st.received e).isSome then st.received
            else (e, p) :: st.received)
          else none⟩ := rfl

theorem takeResult_incomplete (ctx : RQContext) (h : isComplete ctx = false) :
    takeResult ctx = (Except.error RQError.NotReadyError, ctx) := by
  unfold takeResult
  rw [h]
  simp

theorem takeResult_ok (ctx : RQContext) (buf : List Byte) (h : isComplete ctx = true)
    (hr : ctx.result = some buf) :
    takeResult ctx = (Except.ok buf, ⟨ctx.oti, ctx.decoder, none⟩) := by
  unfold takeResult
  rw [h, hr]
  simp

theorem takeResult_taken (ctx : RQContext) (h : isComplete ctx = true)
    (hr : ctx.result = none) :
    takeResult ctx = (Except.error RQError.AlreadyTakenError, ctx) := by
  unfold takeResult
  rw [h, hr]
  simp

/-! ### Identity-set lemmas -/

theorem idMem_append (L : List Frame) (f : Frame) (b e : Nat) :
    idMem (L ++ [f]) b e =
      (idMem L b e || (decide (f.blockIndex = b) && decide (f.esi = e))) := by
  simp [idMem, List.any_append]

theorem idMem_mono_append (L L₂ : List Frame) (b e : Nat) (h : idMem L b e = true) :
    idMem (L ++ L₂) b e = true := by
  simp only [idMem, List.any_append, Bool.or_eq_true]
  exact Or.inl h

theorem idMem_perm (L L' : List Frame) (b e : Nat) (h : L.Perm L') :
    idMem L b e = idMem L' b e := by
  unfold idMem
  rw [Bool.eq_iff_iff, List.any_eq_true, List.any_eq_true]
  constructor <;> rintro ⟨f, hf, hpf⟩
  · exact ⟨f, h.mem_iff.mp hf, hpf⟩
  · exact ⟨f, h.mem_iff.mpr hf, hpf⟩

theorem missingOf_congr (o : OTI) (L L' : List Frame) (b : Nat)
    (h : ∀ e, idMem L' b e = idMem L b e) : missingOf o L' b = missingOf o L b := by
  unfold missingOf
  exact List.filter_congr (fun e _ => by rw [h e])

theorem solvableIds_congr (o : OTI) (L L' : List Frame) (b : Nat)
    (h : ∀ e, idMem L' b e = idMem L b e) : solvableIds o L' b = solvableIds o L b := by
  unfold solvableIds
  rw [missingOf_congr o L L' b h, h o.symbolsPerBlock]

theorem solvableIds_iff (o : OTI) (L : List Frame) (b : Nat) :
    solvableIds o L b = true ↔ ((missingOf o L b).length = 0 ∨
      ((missingOf o L b).length = 1 ∧ idMem L b o.symbolsPerBlock = true)) := by
  simp [solvableIds]

theorem solvableIds_mono (o : OTI) (L L' : List Frame) (b : Nat)
    (h : ∀ e, idMem L b e = true → idMem L' b e = true)
    (hs : solvableIds o L b = true) : solvableIds o L' b = true := by
  have hlen : (missingOf o L' b).length ≤ (missingOf o L b).length := by
    unfold missingOf
    apply length_filter_le_of_imp
    intro e _ hp
    simp only [Bool.not_eq_true'] at hp ⊢
    by_contra hq
    simp only [Bool.not_eq_false] at hq
    rw [h e hq] at hp
    simp at hp
  rw [solvableIds_iff] at hs ⊢
  rcases hs with hz | ⟨hone, hpar⟩
  · left
    omega
  · have : (missingOf o L' b).length = 0 ∨ (missingOf o L' b).length = 1 := by omega
    rcases this with hz' | hone'
    · left
      exact hz'
    · right
      exact ⟨hone', h o.symbolsPerBlock hpar⟩

theorem getD_replicate_lt (n i : Nat) (a d : SourceBlockState) (h : i < n) :
    (List.replicate n a).getD i d = a := by
  induction n generalizing i with
  | zero => omega
  | succ n ih =>
    cases i with
    | zero => rfl
    | succ i =>
      rw [List.replicate_succ]
      exact ih i (by omega)

theorem all_solved_eq (o : OTI) (data : List Byte) (L : List Frame)
    (blocks : List SourceBlockState) (hlen : blocks.length = o.sourceBlockCount)
    (hsol : ∀ b, b < o.sourceBlockCount → (blocks.getD b emptyBlock).solved =
      (if solvableIds o L b then some (trueSources o data b) else none)) :
    (blocks.all (fun st => st.solved.isSome)) =
      (List.range o.sourceBlockCount).all (solvableIds o L) := by
  rw [Bool.eq_iff_iff]
  rw [all_iff_getD blocks _ emptyBlock, List.all_eq_true]
  constructor
  · intro h b hb
    have hbZ := List.mem_range.mp hb
    have := h b (by omega)
    rw [hsol b hbZ] at this
    by_contra hns
    rw [if_neg hns] at this
    simp at this
  · intro h i hi
    have hiZ : i < o.sourceBlockCount := by omega
    rw [hsol i hiZ, if_pos (h i (List.mem_range.mpr hiZ))]
    simp

theorem missingSources_eq_missingOf (o : OTI) (L : List Frame) (b : Nat)
    (R : List (Nat × List Byte)) (hiff : ∀ e, (findEsi R e).isSome = idMem L b e) :
    missingSources o.symbolsPerBlock R = missingOf o L b := by
  unfold missingSources missingOf
  apply List.filter_congr
  intro e _
  cases hfe : findEsi R e with
  | none =>
    have h := hiff e
    rw [hfe] at h
    rw [← h]
    rfl
  | some p =>
    have h := hiff e
    rw [hfe] at h
    rw [← h]
    rfl

theorem solvable_card_ge (o : OTI) (L : List Frame) (b : Nat)
    (R : List (Nat × List Byte))
    (hiff : ∀ e, (findEsi R e).isSome = idMem L b e)
    (hs : solvableIds o L b = true) : o.symbolsPerBlock ≤ R.length := by
  have hkeylen : (R.map Prod.fst).length = R.length := List.length_map R Prod.fst
  have hkey : ∀ e, idMem L b e = true → e ∈ R.map Prod.fst := by
    intro e he
    rw [← findEsi_isSome_iff_mem]
    rw [hiff e]
    exact he
  rw [solvableIds_iff] at hs
  rcases hs with hz | ⟨hone, hpar⟩
  · have hmiss : missingOf o L b = [] := List.length_eq_zero.mp hz
    have hsub : List.range o.symbolsPerBlock ⊆ R.map Prod.fst := by
      intro e he
      apply hkey
      by_contra hne
      have : e ∈ missingOf o L b := by
        refine List.mem_filter.mpr ⟨he, ?_⟩
        simp only [Bool.not_eq_true'] at hne ⊢
        simpa using hne
      rw [hmiss] at this
      simp at this
    have := ((List.nodup_range o.symbolsPerBlock).subperm hsub).length_le
    rw [List.length_range] at this
    omega
  · obtain ⟨m, hm⟩ := List.length_eq_one.mp hone
    have hmmem : m ∈ missingOf o L b := by
      rw [hm]
      simp
    have hmK : m < o.symbolsPerBlock := List.mem_range.mp (List.mem_filter.mp hmmem).1
    have hKpos : 1 ≤ o.symbolsPerBlock := by omega
    have hsubl : ((List.range o.symbolsPerBlock).filter (fun e => e != m)) ++
        [o.symbolsPerBlock] ⊆ R.map Prod.fst := by
      intro x hx
      rcases List.mem_append.mp hx with hx1 | hx2
      · obtain ⟨hxr, hxm⟩ := List.mem_filter.mp hx1
        apply hkey
        by_contra hne
        have : x ∈ missingOf o L b := by
          refine List.mem_filter.mpr ⟨hxr, ?_⟩
          simp only [Bool.not_eq_true'] at hne ⊢
          simpa using hne
        rw [hm] at this
        simp at this
        subst this
        simp at hxm
      · have hx2' : x = o.symbolsPerBlock := by simpa using hx2
        subst hx2'
        exact hkey _ hpar
    have hnd : (((List.range o.symbolsPerBlock).filter (fun e => e != m)) ++
        [o.symbolsPerBlock]).Nodup := by
      rw [List.nodup_append]
      refine ⟨(List.nodup_range o.symbolsPerBlock).filter _, List.nodup_singleton _, ?_⟩
      intro x hx1 hx2
      have hx2' : x = o.symbolsPerBlock := by simpa using hx2
      subst hx2'
      have := List.mem_range.mp (List.mem_filter.mp hx1).1
      omega
    have hli := (hnd.subperm hsubl).length_le
    rw [List.length_append, List.length_singleton] at hli
    have herase : (List.range o.symbolsPerBlock).filter (fun e => e != m) =
        (List.range o.symbolsPerBlock).erase m :=
      ((List.nodup_range o.symbolsPerBlock).erase_eq_filter m).symm
    rw [herase, List.length_erase_of_mem (List.mem_range.mpr hmK), List.length_range] at hli
    omega

/-- The per-block solve step: running the solver (behind its `K`-symbol
gate) on a received set that mirrors the identity set of `L` produces
the true sources exactly when the identity set is solvable. -/
theorem solve_step (o : OTI) (data : List Byte) (L : List Frame) (b : Nat)
    (R : List (Nat × List Byte)) (ho : o.valid) (hd : data.length = o.transferLength)
    (hb : b < o.sourceBlockCount)
    (hiff : ∀ e, (findEsi R e).isSome = idMem L b e)
    (hcons : ∀ pr ∈ R, pr.2 = encodeSymbol o data b pr.1) :
    (if o.symbolsPerBlock ≤ R.length
      then trySolve o.symbolsPerBlock o.symbolSize R else none) =
      (if solvableIds o L b then some (trueSources o data b) else none) := by
  have hms := missingSources_eq_missingOf o L b R hiff
  by_cases hs : solvableIds o L b = true
  · rw [if_pos hs, if_pos (solvable_card_ge o L b R hiff hs)]
    rcases (solvableIds_iff o L b).mp hs with hz | ⟨hone, hpar⟩
    · have hmiss : missingSources o.symbolsPerBlock R = [] := by
        rw [hms]
        exact List.length_eq_zero.mp hz
      exact trySolve_complete o data b R hcons hmiss
    · obtain ⟨m, hm⟩ := List.length_eq_one.mp hone
      have hmiss : missingSources o.symbolsPerBlock R = [m] := by rw [hms, hm]
      have hparR : (findEsi R o.symbolsPerBlock).isSome = true := by
        rw [hiff]
        exact hpar
      exact trySolve_missing_one o data b m R ho hd hb hcons hmiss hparR
  · rw [if_neg hs]
    by_cases hgate : o.symbolsPerBlock ≤ R.length
    · rw [if_pos hgate]
      apply trySolve_none
      intro hcontra
      apply hs
      rw [solvableIds_iff]
      rcases hcontra with hnil | ⟨m, hm1, hm2⟩
      · left
        rw [hms] at hnil
        rw [hnil]
        rfl
      · right
        rw [hms] at hm1
        constructor
        · rw [hm1]
          rfl
        · rw [← hiff]
          exact hm2
    · rw [if_neg hgate]

/-! ### The master invariant -/

theorem Good_mkContext (o : OTI) (data : List Byte) (ho : o.valid) :
    Good o data [] (mkContext o) := by
  have hK := symbolsPerBlock_pos o ho
  have hZ : 1 ≤ o.sourceBlockCount := ho.2.2.2.2
  have hsolv : ∀ b, solvableIds o ([] : List Frame) b = false := by
    intro b
    rw [← Bool.not_eq_true, solvableIds_iff]
    have hmiss : missingOf o [] b = List.range o.symbolsPerBlock := by
      unfold missingOf
      apply List.filter_eq_self.mpr
      intro e _
      simp [idMem]
    rw [hmiss, List.length_range]
    simp only [idMem, List.any_nil]
    intro hcontra
    rcases hcontra with h0 | ⟨h1, h2⟩
    · omega
    · simp at h2
  refine ⟨rfl, by simp [mkContext], ?_, ?_⟩
  · intro b hb
    have hbs : ((mkContext o).decoder.blocks.getD b emptyBlock) = emptyBlock := by
      simp only [mkContext]
      exact getD_replicate_lt o.sourceBlockCount b emptyBlock emptyBlock hb
    rw [hbs]
    refine ⟨by simp [emptyBlock], ?_, by simp [emptyBlock], ?_⟩
    · intro e
      simp [emptyBlock, findEsi, idMem]
    · rw [hsolv b, if_neg (by simp), emptyBlock]
  · have hall : ((List.range o.sourceBlockCount).all (solvableIds o [])) = false := by
      rw [← Bool.not_eq_true, List.all_eq_true]
      intro hcontra
      have := hcontra 0 (List.mem_range.mpr (by omega))
      rw [hsolv 0] at this
      simp at this
    rw [hall]
    simp [mkContext]

theorem Good_push (o : OTI) (data : List Byte) (L : List Frame) (ctx : RQContext) (f : Frame)
    (ho : o.valid) (hd : data.length = o.transferLength)
    (hG : Good o data L ctx) (hf : f.consistent o data) :
    Good o data (L ++ [f]) (push ctx f).2 := by
  obtain ⟨hoti, hlen, hblocks, hres⟩ := hG
  obtain ⟨hfb, hfe, hfp⟩ := hf
  have hguard : f.payload.length = ctx.oti.symbolSize ∧
      f.blockIndex < ctx.oti.sourceBlockCount ∧
      f.esi < ctx.oti.symbolsPerBlock + repairCount := by
    rw [hoti]
    exact ⟨by rw [hfp]; exact encodeSymbol_length o data _ _ ho hd hfb, hfb, hfe⟩
  rw [push_valid_eq ctx f hguard]
  rw [hoti]
  have hlen' : (updateBlock ctx.decoder.blocks f.blockIndex
      (fun st => ingestSymbol o.symbolsPerBlock o.symbolSize st f.esi f.payload)).length =
      o.sourceBlockCount := by
    rw [length_updateBlock, hlen]
  have hfblen : f.blockIndex < ctx.decoder.blocks.length := by
    rw [hlen]
    exact hfb
  have hper : ∀ b, b < o.sourceBlockCount →
      (((updateBlock ctx.decoder.blocks f.blockIndex
        (fun st => ingestSymbol o.symbolsPerBlock o.symbolSize st f.esi
          f.payload)).getD b emptyBlock).received.map Prod.fst).Nodup ∧
      (∀ e : Nat, (findEsi ((updateBlock ctx.decoder.blocks f.blockIndex
        (fun st => ingestSymbol o.symbolsPerBlock o.symbolSize st f.esi
          f.payload)).getD b emptyBlock).received e).isSome = idMem (L ++ [f]) b e) ∧
      (∀ pr ∈ ((updateBlock ctx.decoder.blocks f.blockIndex
        (fun st => ingestSymbol o.symbolsPerBlock o.symbolSize st f.esi
          f.payload)).getD b emptyBlock).received,
        pr.1 < o.symbolsPerBlock + repairCount ∧ pr.2 = encodeSymbol o data b pr.1) ∧
      ((updateBlock ctx.decoder.blocks f.blockIndex
        (fun st => ingestSymbol o.symbolsPerBlock o.symbolSize st f.esi
          f.payload)).getD b emptyBlock).solved =
        (if solvableIds o (L ++ [f]) b then some (trueSources o data b) else none) := by
    intro b hb
    obtain ⟨hnodup0, hiff0, hcons0, hsolved0⟩ := hblocks b hb
    by_cases hbf : b = f.blockIndex
    · subst hbf
      rw [getD_updateBlock_eq ctx.decoder.blocks f.blockIndex _ emptyBlock (by rw [hlen]; exact hb)]
      rw [ingestSymbol_eq]
      by_cases hdup : (findEsi (ctx.decoder.blocks.getD f.blockIndex emptyBlock).received f.esi).isSome =
          true
      · have hidfe : idMem L f.blockIndex f.esi = true := by
          rw [← hiff0]
          exact hdup
        have hid : ∀ e, idMem (L ++ [f]) f.blockIndex e = idMem L f.blockIndex e := by
          intro e
          rw [idMem_append]
          by_cases hee : f.esi = e
          · subst hee
            simp [hidfe]
          · simp [hee]
        rw [if_pos hdup]
        refine ⟨hnodup0, fun e => (hiff0 e).trans (hid e).symm, hcons0, ?_⟩
        show (if (ctx.decoder.blocks.getD f.blockIndex emptyBlock).solved.isSome then
            (ctx.decoder.blocks.getD f.blockIndex emptyBlock).solved
          else if o.symbolsPerBlock ≤ (ctx.decoder.blocks.getD f.blockIndex emptyBlock).received.length
            then trySolve o.symbolsPerBlock o.symbolSize
              (ctx.decoder.blocks.getD f.blockIndex emptyBlock).received
            else none) = _
        by_cases hs0 : solvableIds o L f.blockIndex = true
        · have hs0' : solvableIds o (L ++ [f]) f.blockIndex = true := by
            rw [solvableIds_congr o L (L ++ [f]) f.blockIndex hid]
            exact hs0
          rw [hsolved0, if_pos hs0, if_pos hs0', if_pos (by simp)]
        · rw [hsolved0, if_neg hs0, if_neg (by simp)]
          exact solve_step o data (L ++ [f]) f.blockIndex
            (ctx.decoder.blocks.getD f.blockIndex emptyBlock).received ho hd hb
            (fun e => (hiff0 e).trans (hid e).symm) (fun pr hpr => (hcons0 pr hpr).2)
      · have hnone : findEsi (ctx.decoder.blocks.getD f.blockIndex emptyBlock).received f.esi = none := by
          cases hfind : findEsi (ctx.decoder.blocks.getD f.blockIndex emptyBlock).received f.esi with
          | none => rfl
          | some p =>
            rw [hfind] at hdup
            simp at hdup
        have hnotmem : f.esi ∉ (ctx.decoder.blocks.getD f.blockIndex emptyBlock).received.map Prod.fst :=
          (findEsi_eq_none_iff _ _).mp hnone
        rw [if_neg hdup]
        have hiff' : ∀ e, (findEsi ((f.esi, f.payload) ::
            (ctx.decoder.blocks.getD f.blockIndex emptyBlock).received) e).isSome =
            idMem (L ++ [f]) f.blockIndex e := by
          intro e
          rw [idMem_append]
          by_cases hee : f.esi = e
          · subst hee
            simp [findEsi]
          · show (if f.esi = e then some f.payload else
              findEsi (ctx.decoder.blocks.getD f.blockIndex emptyBlock).received e).isSome = _
            rw [if_neg hee, hiff0 e]
            simp [hee]
        have hcons' : ∀ pr ∈ (f.esi, f.payload) ::
            (ctx.decoder.blocks.getD f.blockIndex emptyBlock).received,
            pr.1 < o.symbolsPerBlock + repairCount ∧ pr.2 = encodeSymbol o data f.blockIndex pr.1 := by
          intro pr hpr
          rcases List.mem_cons.mp hpr with rfl | hpr'
          · exact ⟨hfe, hfp⟩
          · exact hcons0 pr hpr'
        refine ⟨?_, hiff', hcons', ?_⟩
        · rw [List.map_cons]
          exact List.nodup_cons.mpr ⟨hnotmem, hnodup0⟩
        · show (if (ctx.decoder.blocks.getD f.blockIndex emptyBlock).solved.isSome then
              (ctx.decoder.blocks.getD f.blockIndex emptyBlock).solved
            else if o.symbolsPerBlock ≤ ((f.esi, f.payload) ::
                (ctx.decoder.blocks.getD f.blockIndex emptyBlock).received).length
              then trySolve o.symbolsPerBlock o.symbolSize ((f.esi, f.payload) ::
                (ctx.decoder.blocks.getD f.blockIndex emptyBlock).received)
              else none) = _
          by_cases hs0 : solvableIds o L f.blockIndex = true
          · have hs0' : solvableIds o (L ++ [f]) f.blockIndex = true :=
              solvableIds_mono o L (L ++ [f]) f.blockIndex (fun e => idMem_mono_append L [f] f.blockIndex e) hs0
            rw [hsolved0, if_pos hs0, if_pos hs0', if_pos (by simp)]
          · rw [hsolved0, if_neg hs0, if_neg (by simp)]
            exact solve_step o data (L ++ [f]) f.blockIndex
              ((f.esi, f.payload) :: (ctx.decoder.blocks.getD f.blockIndex emptyBlock).received)
              ho hd hb hiff' (fun pr hpr => (hcons' pr hpr).2)
    · rw [getD_updateBlock_ne ctx.decoder.blocks f.blockIndex b _ emptyBlock hbf]
      have hid : ∀ e, idMem (L ++ [f]) b e = idMem L b e := by
        intro e
        rw [idMem_append]
        have : decide (f.blockIndex = b) = false :=
          decide_eq_false (fun hc => hbf (hc ▸ rfl))
        rw [this]
        simp
      refine ⟨hnodup0, fun e => (hiff0 e).trans (hid e).symm, hcons0, ?_⟩
      rw [hsolved0, solvableIds_congr o L (L ++ [f]) b hid]
  refine ⟨rfl, hlen', hper, ?_⟩
  have hall_old : isComplete ctx = (List.range o.sourceBlockCount).all (solvableIds o L) := by
    rw [isComplete]
    exact all_solved_eq o data L ctx.decoder.blocks hlen (fun b hb => (hblocks b hb).2.2.2)
  have hall_new : ((updateBlock ctx.decoder.blocks f.blockIndex
      (fun st => ingestSymbol o.symbolsPerBlock o.symbolSize st f.esi f.payload)).all
        (fun st => st.solved.isSome)) =
      (List.range o.sourceBlockCount).all (solvableIds o (L ++ [f])) :=
    all_solved_eq o data (L ++ [f]) _ hlen' (fun b hb => (hper b hb).2.2.2)
  show (if _ then _ else _) = _
  rw [hall_old, hall_new, hres]
  by_cases hL : ((List.range o.sourceBlockCount).all (solvableIds o L)) = true
  · have hL' : ((List.range o.sourceBlockCount).all (solvableIds o (L ++ [f]))) = true := by
      rw [List.all_eq_true] at hL ⊢
      intro b hb
      exact solvableIds_mono o L (L ++ [f]) b
        (fun e => idMem_mono_append L [f] b e) (hL b hb)
    rw [hL, hL']
    simp
  · rw [Bool.not_eq_true] at hL
    rw [hL]
    by_cases hL' : ((List.range o.sourceBlockCount).all (solvableIds o (L ++ [f]))) = true
    · rw [hL']
      simp only [Bool.not_false, Bool.true_and, if_true]
      have hasm : assembleResult o (updateBlock ctx.decoder.blocks f.blockIndex
          (fun st => ingestSymbol o.symbolsPerBlock o.symbolSize st f.esi f.payload)) =
          data := by
        apply assembleResult_eq_data o data _ ho hd hlen'
        intro b hb
        rw [(hper b hb).2.2.2,
          if_pos ((List.all_eq_true.mp hL') b (List.mem_range.mpr hb))]
      rw [hasm]
    · rw [Bool.not_eq_true] at hL'
      rw [hL']
      simp

theorem runPush_append (ctx : RQContext) (L : List Frame) (f : Frame) :
    runPush ctx (L ++ [f]) = (push (runPush ctx L) f).2 := by
  unfold runPush
  rw [List.foldl_append]
  rfl

theorem Good_runPush (o : OTI) (data : List Byte) (L : List Frame) (ho : o.valid)
    (hd : data.length = o.transferLength) (hcons : ∀ f ∈ L, f.consistent o data) :
    Good o data L (runPush (mkContext o) L) := by
  induction L using List.reverseRecOn with
  | nil => exact Good_mkContext o data ho
  | append_singleton L f ih =>
    rw [runPush_append]
    exact Good_push o data L (runPush (mkContext o) L) f ho hd
      (ih (fun g hg => hcons g (List.mem_append_left [f] hg)))
      (hcons f (by simp))

/-! ### Well-formedness of all reachable contexts -/

theorem flatten_length_uniform :
    ∀ (ss : List (List Byte)) (s : Nat), (∀ x ∈ ss, x.length = s) →
      ss.flatten.length = ss.length * s := by
  intro ss
  induction ss with
  | nil => simp
  | cons hd tl ih =>
    intro s h
    rw [List.flatten_cons, List.length_append, List.length_cons,
      ih s (fun x hx => h x (List.mem_cons_of_mem hd hx)), h hd (List.mem_cons_self hd tl)]
    ring

theorem blocks_flatten_length (blocks : List SourceBlockState) (c : Nat)
    (h : ∀ st ∈ blocks, ((st.solved.getD []).flatten).length = c) :
    ((blocks.map (fun st => (st.solved.getD []).flatten)).flatten).length =
      blocks.length * c := by
  induction blocks with
  | nil => simp
  | cons hd tl ih =>
    rw [List.map_cons, List.flatten_cons, List.length_append, List.length_cons,
      ih (fun st hst => h st (List.mem_cons_of_mem hd hst)), h hd (List.mem_cons_self hd tl)]
    ring

theorem assembleResult_length (o : OTI) (blocks : List SourceBlockState) (ho : o.valid)
    (hlen : blocks.length = o.sourceBlockCount)
    (hall : blocks.all (fun st => st.solved.isSome) = true)
    (hwf : ∀ b, b < o.sourceBlockCount → ∀ ss,
      (blocks.getD b emptyBlock).solved = some ss →
      ss.length = o.symbolsPerBlock ∧ ∀ s ∈ ss, s.length = o.symbolSize) :
    (assembleResult o blocks).length = o.transferLength := by
  rw [assembleResult, List.length_take]
  have hblock : ∀ st ∈ blocks, ((st.solved.getD []).flatten).length =
      o.symbolsPerBlock * o.symbolSize := by
    intro st hst
    obtain ⟨i, hi, rfl⟩ := List.getElem_of_mem hst
    have hiZ : i < o.sourceBlockCount := by omega
    have hisome := List.all_eq_true.mp hall blocks[i] (by
      exact List.getElem_mem hi)
    obtain ⟨ss, hss⟩ := Option.isSome_iff_exists.mp hisome
    have hgd : blocks.getD i emptyBlock = blocks[i] := List.getD_eq_getElem blocks emptyBlock hi
    obtain ⟨hss1, hss2⟩ := hwf i hiZ ss (by rw [hgd]; exact hss)
    rw [hss, Option.getD_some, flatten_length_uniform ss o.symbolSize hss2, hss1]
  rw [blocks_flatten_length blocks (o.symbolsPerBlock * o.symbolSize) hblock, hlen]
  have hTL : o.transferLength ≤ o.sourceBlockCount * (o.symbolsPerBlock * o.symbolSize) := by
    have := transferLength_le_paddedLength o ho
    rw [OTI.paddedLength] at this
    have heq : o.sourceBlockCount * o.symbolsPerBlock * o.symbolSize =
        o.sourceBlockCount * (o.symbolsPerBlock * o.symbolSize) := by ring
    omega
  omega

theorem WF_mkContext (o : OTI) : WFCtx o (mkContext o) := by
  refine ⟨rfl, by simp [mkContext], ?_, ?_⟩
  · intro b hb
    have hbs : ((mkContext o).decoder.blocks.getD b emptyBlock) = emptyBlock := by
      simp only [mkContext]
      exact getD_replicate_lt o.sourceBlockCount b emptyBlock emptyBlock hb
    rw [hbs]
    exact ⟨by simp [emptyBlock], by simp [emptyBlock]⟩
  · intro buf h
    simp [mkContext] at h

theorem WF_push (o : OTI) (ctx : RQContext) (f : Frame) (ho : o.valid)
    (hW : WFCtx o ctx) : WFCtx o (push ctx f).2 := by
  obtain ⟨hoti, hlen, hblocks, hres⟩ := hW
  by_cases hg : f.payload.length = ctx.oti.symbolSize ∧
      f.blockIndex < ctx.oti.sourceBlockCount ∧
      f.esi < ctx.oti.symbolsPerBlock + repairCount
  · obtain ⟨hg1, hg2, hg3⟩ := hg
    rw [hoti] at hg1 hg2 hg3
    rw [push_valid_eq ctx f (by rw [hoti]; exact ⟨hg1, hg2, hg3⟩), hoti]
    have hlen' : (updateBlock ctx.decoder.blocks f.blockIndex
        (fun st => ingestSymbol o.symbolsPerBlock o.symbolSize st f.esi f.payload)).length =
        o.sourceBlockCount := by
      rw [length_updateBlock, hlen]
    have hper : ∀ b, b < o.sourceBlockCount →
        (∀ pr ∈ ((updateBlock ctx.decoder.blocks f.blockIndex
          (fun st => ingestSymbol o.symbolsPerBlock o.symbolSize st f.esi
            f.payload)).getD b emptyBlock).received,
          pr.1 < o.symbolsPerBlock + repairCount ∧ pr.2.length = o.symbolSize) ∧
        (∀ ss, ((updateBlock ctx.decoder.blocks f.blockIndex
          (fun st => ingestSymbol o.symbolsPerBlock o.symbolSize st f.esi
            f.payload)).getD b emptyBlock).solved = some ss →
          ss.length = o.symbolsPerBlock ∧ ∀ s ∈ ss, s.length = o.symbolSize) := by
      intro b hb
      obtain ⟨hrec0, hsol0⟩ := hblocks b hb
      by_cases hbf : b = f.blockIndex
      · subst hbf
        rw [getD_updateBlock_eq ctx.decoder.blocks f.blockIndex _ emptyBlock (by rw [hlen]; exact hb)]
        rw [ingestSymbol_eq]
        have hrec' : ∀ pr ∈ (if (findEsi (ctx.decoder.blocks.getD f.blockIndex emptyBlock).received
            f.esi).isSome then (ctx.decoder.blocks.getD f.blockIndex emptyBlock).received
            else (f.esi, f.payload) :: (ctx.decoder.blocks.getD f.blockIndex emptyBlock).received),
            pr.1 < o.symbolsPerBlock + repairCount ∧ pr.2.length = o.symbolSize := by
          by_cases hdup : (findEsi (ctx.decoder.blocks.getD f.blockIndex emptyBlock).received
              f.esi).isSome = true
          · rw [if_pos hdup]
            exact hrec0
          · rw [if_neg hdup]
            intro pr hpr
            rcases List.mem_cons.mp hpr with rfl | hpr'
            · exact ⟨hg3, hg1⟩
            · exact hrec0 pr hpr'
        refine ⟨hrec', ?_⟩
        intro ss hss
        have hss' : (if (ctx.decoder.blocks.getD f.blockIndex emptyBlock).solved.isSome then
            (ctx.decoder.blocks.getD f.blockIndex emptyBlock).solved
          else if o.symbolsPerBlock ≤
              (if (findEsi (ctx.decoder.blocks.getD f.blockIndex emptyBlock).received f.esi).isSome
                then (ctx.decoder.blocks.getD f.blockIndex emptyBlock).received
                else (f.esi, f.payload) ::
                  (ctx.decoder.blocks.getD f.blockIndex emptyBlock).received).length
            then trySolve o.symbolsPerBlock o.symbolSize
              (if (findEsi (ctx.decoder.blocks.getD f.blockIndex emptyBlock).received f.esi).isSome
                then (ctx.decoder.blocks.getD f.blockIndex emptyBlock).received
                else (f.esi, f.payload) ::
                  (ctx.decoder.blocks.getD f.blockIndex emptyBlock).received)
            else none) = some ss := hss
        by_cases hsome : (ctx.decoder.blocks.getD f.blockIndex emptyBlock).solved.isSome = true
        · rw [if_pos hsome] at hss'
          exact hsol0 ss hss'
        · rw [if_neg hsome] at hss'
          by_cases hgate : o.symbolsPerBlock ≤
              (if (findEsi (ctx.decoder.blocks.getD f.blockIndex emptyBlock).received f.esi).isSome
                then (ctx.decoder.blocks.getD f.blockIndex emptyBlock).received
                else (f.esi, f.payload) ::
                  (ctx.decoder.blocks.getD f.blockIndex emptyBlock).received).length
          · rw [if_pos hgate] at hss'
            exact trySolve_lengths o.symbolsPerBlock o.symbolSize _ ss
              (fun pr hpr => (hrec' pr hpr).2) hss'
          · rw [if_neg hgate] at hss'
            exact absurd hss' (by simp)
      · rw [getD_updateBlock_ne ctx.decoder.blocks f.blockIndex b _ emptyBlock hbf]
        exact ⟨hrec0, hsol0⟩
    refine ⟨rfl, hlen', hper, ?_⟩
    intro buf hbuf
    by_cases hcn : (!isComplete ctx && ((updateBlock ctx.decoder.blocks f.blockIndex
        (fun st => ingestSymbol o.symbolsPerBlock o.symbolSize st f.esi f.payload)).all
          (fun st => st.solved.isSome))) = true
    · rw [if_pos hcn] at hbuf
      obtain rfl : assembleResult o (updateBlock ctx.decoder.blocks f.blockIndex
          (fun st => ingestSymbol o.symbolsPerBlock o.symbolSize st f.esi f.payload)) = buf :=
        Option.some_injective _ hbuf
      exact assembleResult_length o _ ho hlen'
        ((Bool.and_eq_true _ _).mp hcn).2 (fun b hb => (hper b hb).2)
    · rw [if_neg hcn] at hbuf
      exact hres buf hbuf
  · rw [push_malformed_eq ctx f hg]
    exact ⟨hoti, hlen, hblocks, hres⟩

end RaptorQ

namespace RaptorQ

theorem WF_take (o : OTI) (ctx : RQContext) (hW : WFCtx o ctx) :
    WFCtx o (takeResult ctx).2 := by
  obtain ⟨hoti, hlen, hblocks, hres⟩ := hW
  by_cases hc : isComplete ctx = true
  · cases hr : ctx.result with
    | some buf =>
      rw [takeResult_ok ctx buf hc hr]
      exact ⟨hoti, hlen, hblocks, by intro b h; simp at h⟩
    | none =>
      rw [takeResult_taken ctx hc hr]
      exact ⟨hoti, hlen, hblocks, hres⟩
  · rw [Bool.not_eq_true] at hc
    rw [takeResult_incomplete ctx hc]
    exact ⟨hoti, hlen, hblocks, hres⟩

theorem WF_applyOp (o : OTI) (ctx : RQContext) (op : Op) (ho : o.valid)
    (hW : WFCtx o ctx) : WFCtx o (applyOp ctx op) := by
  cases op with
  | pushOp f => exact WF_push o ctx f ho hW
  | takeOp => exact WF_take o ctx hW

theorem runOps_append (ctx : RQContext) (ops : List Op) (op : Op) :
    runOps ctx (ops ++ [op]) = applyOp (runOps ctx ops) op := by
  unfold runOps
  rw [List.foldl_append]
  rfl

theorem WF_runOps (o : OTI) (ops : List Op) (ho : o.valid) :
    WFCtx o (runOps (mkContext o) ops) := by
  induction ops using List.reverseRecOn with
  | nil => exact WF_mkContext o
  | append_singleton ops op ih =>
    rw [runOps_append]
    exact WF_applyOp o _ op ho ih

/-! ### No pending solve: duplicate pushes can never flip a block -/

theorem NPS_mkContext (o : OTI) (ho : o.valid) : NoPendingSolve o (mkContext o) := by
  intro b hb _
  left
  have hbs : ((mkContext o).decoder.blocks.getD b emptyBlock) = emptyBlock := by
    simp only [mkContext]
    exact getD_replicate_lt o.sourceBlockCount b emptyBlock emptyBlock hb
  rw [hbs]
  have := symbolsPerBlock_pos o ho
  simp only [emptyBlock, List.length_nil]
  omega

theorem NPS_push (o : OTI) (ctx : RQContext) (f : Frame)
    (hlen : ctx.decoder.blocks.length = o.sourceBlockCount) (hoti : ctx.oti = o)
    (hN : NoPendingSolve o ctx) : NoPendingSolve o (push ctx f).2 := by
  by_cases hg : f.payload.length = ctx.oti.symbolSize ∧
      f.blockIndex < ctx.oti.sourceBlockCount ∧
      f.esi < ctx.oti.symbolsPerBlock + repairCount
  · rw [push_valid_eq ctx f hg, hoti]
    intro b hb
    by_cases hbf : b = f.blockIndex
    · subst hbf
      rw [getD_updateBlock_eq ctx.decoder.blocks f.blockIndex _ emptyBlock (by rw [hlen]; exact hb)]
      rw [ingestSymbol_eq]
      intro hsolved
      have hsolved' : (if (ctx.decoder.blocks.getD f.blockIndex emptyBlock).solved.isSome then
          (ctx.decoder.blocks.getD f.blockIndex emptyBlock).solved
        else if o.symbolsPerBlock ≤
            (if (findEsi (ctx.decoder.blocks.getD f.blockIndex emptyBlock).received f.esi).isSome
              then (ctx.decoder.blocks.getD f.blockIndex emptyBlock).received
              else (f.esi, f.payload) ::
                (ctx.decoder.blocks.getD f.blockIndex emptyBlock).received).length
          then trySolve o.symbolsPerBlock o.symbolSize
            (if (findEsi (ctx.decoder.blocks.getD f.blockIndex emptyBlock).received f.esi).isSome
              then (ctx.decoder.blocks.getD f.blockIndex emptyBlock).received
              else (f.esi, f.payload) ::
                (ctx.decoder.blocks.getD f.blockIndex emptyBlock).received)
          else none) = none := hsolved
      by_cases hsome : (ctx.decoder.blocks.getD f.blockIndex emptyBlock).solved.isSome = true
      · rw [if_pos hsome] at hsolved'
        rw [hsolved'] at hsome
        simp at hsome
      · rw [if_neg hsome] at hsolved'
        by_cases hgate : o.symbolsPerBlock ≤
            (if (findEsi (ctx.decoder.blocks.getD f.blockIndex emptyBlock).received f.esi).isSome
              then (ctx.decoder.blocks.getD f.blockIndex emptyBlock).received
              else (f.esi, f.payload) ::
                (ctx.decoder.blocks.getD f.blockIndex emptyBlock).received).length
        · right
          rw [if_pos hgate] at hsolved'
          exact hsolved'
        · left
          show (if (findEsi (ctx.decoder.blocks.getD f.blockIndex emptyBlock).received
              f.esi).isSome
            then (ctx.decoder.blocks.getD f.blockIndex emptyBlock).received
            else (f.esi, f.payload) ::
              (ctx.decoder.blocks.getD f.blockIndex emptyBlock).received).length <
            o.symbolsPerBlock
          omega
    · rw [getD_updateBlock_ne ctx.decoder.blocks f.blockIndex b _ emptyBlock hbf]
      exact hN b hb
  · rw [push_malformed_eq ctx f hg]
    exact hN

theorem NPS_take (o : OTI) (ctx : RQContext) (hN : NoPendingSolve o ctx) :
    NoPendingSolve o (takeResult ctx).2 := by
  by_cases hc : isComplete ctx = true
  · cases hr : ctx.result with
    | some buf =>
      rw [takeResult_ok ctx buf hc hr]
      exact hN
    | none =>
      rw [takeResult_taken ctx hc hr]
      exact hN
  · rw [Bool.not_eq_true] at hc
    rw [takeResult_incomplete ctx hc]
    exact hN

theorem NPS_runOps (o : OTI) (ops : List Op) (ho : o.valid) :
    NoPendingSolve o (runOps (mkContext o) ops) := by
  induction ops using List.reverseRecOn with
  | nil => exact NPS_mkContext o ho
  | append_singleton ops op ih =>
    rw [runOps_append]
    cases op with
    | pushOp f =>
      exact NPS_push o _ f (WF_runOps o ops ho).2.1 (WF_runOps o ops ho).1 ih
    | takeOp => exact NPS_take o _ ih

/-! ### Completion is monotone -/

theorem all_isSome_updateBlock (blocks : List SourceBlockState) (n : Nat)
    (g : SourceBlockState → SourceBlockState)
    (h : blocks.all (fun st => st.solved.isSome) = true)
    (hg : ∀ st, st.solved.isSome = true → (g st).solved.isSome = true) :
    (updateBlock blocks n g).all (fun st => st.solved.isSome) = true := by
  rw [all_iff_getD _ _ emptyBlock] at h ⊢
  intro i hi
  rw [length_updateBlock] at hi
  by_cases hin : i = n
  · subst hin
    rw [getD_updateBlock_eq blocks i g emptyBlock hi]
    exact hg _ (h i hi)
  · rw [getD_updateBlock_ne blocks n i g emptyBlock hin]
    exact h i hi

theorem ingestSymbol_solved_mono (K s : Nat) (st : SourceBlockState) (e : Nat)
    (p : List Byte) (h : st.solved.isSome = true) :
    (ingestSymbol K s st e p).solved.isSome = true := by
  rw [ingestSymbol_eq]
  show (if st.solved.isSome then st.solved else _).isSome = true
  rw [if_pos h]
  exact h

theorem isComplete_push (ctx : RQContext) (f : Frame) (h : isComplete ctx = true) :
    isComplete (push ctx f).2 = true := by
  by_cases hg : f.payload.length = ctx.oti.symbolSize ∧
      f.blockIndex < ctx.oti.sourceBlockCount ∧
      f.esi < ctx.oti.symbolsPerBlock + repairCount
  · rw [push_valid_eq ctx f hg]
    show (updateBlock ctx.decoder.blocks f.blockIndex _).all (fun st => st.solved.isSome) = true
    exact all_isSome_updateBlock ctx.decoder.blocks f.blockIndex _ h
      (fun st hst => ingestSymbol_solved_mono _ _ st f.esi f.payload hst)
  · rw [push_malformed_eq ctx f hg]
    exact h

theorem isComplete_take (ctx : RQContext) (h : isComplete ctx = true) :
    isComplete (takeResult ctx).2 = true := by
  cases hr : ctx.result with
  | some buf =>
    rw [takeResult_ok ctx buf h hr]
    exact h
  | none =>
    rw [takeResult_taken ctx h hr]
    exact h

theorem isComplete_applyOp (ctx : RQContext) (op : Op) (h : isComplete ctx = true) :
    isComplete (applyOp ctx op) = true := by
  cases op with
  | pushOp f => exact isComplete_push ctx f h
  | takeOp => exact isComplete_take ctx h

theorem isComplete_runOps (ctx : RQContext) (ops : List Op) (h : isComplete ctx = true) :
    isComplete (runOps ctx ops) = true := by
  induction ops using List.reverseRecOn with
  | nil => exact h
  | append_singleton ops op ih =>
    rw [runOps_append]
    exact isComplete_applyOp _ op ih

/-! ### Remaining helper lemmas for the claims -/

theorem mem_encoderFrames_consistent (o : OTI) (data : List Byte) (f : Frame)
    (h : f ∈ encoderFrames o data) : f.consistent o data := by
  rw [encoderFrames] at h
  rw [List.mem_flatten] at h
  obtain ⟨l, hl, hf⟩ := h
  obtain ⟨b, hb, rfl⟩ := List.mem_map.mp hl
  obtain ⟨e, he, rfl⟩ := List.mem_map.mp hf
  exact ⟨List.mem_range.mp hb, List.mem_range.mp he, rfl⟩

theorem lossTolerance_solvable (o : OTI) (L : List Frame) (b : Nat)
    (h : (lostSymbols o L b).length ≤ designedLossTolerance) :
    solvableIds o L b = true := by
  have hsplit : lostSymbols o L b =
      missingOf o L b ++ (if idMem L b o.symbolsPerBlock then [] else [o.symbolsPerBlock]) := by
    rw [lostSymbols, missingOf, repairCount, List.range_succ, List.filter_append]
    congr 1
    cases hp : idMem L b o.symbolsPerBlock with
    | true => simp [hp]
    | false => simp [hp]
  rw [hsplit, List.length_append] at h
  rw [solvableIds_iff]
  rw [designedLossTolerance, repairCount] at h
  cases hp : idMem L b o.symbolsPerBlock with
  | true =>
    rw [hp, if_pos rfl, List.length_nil] at h
    have hm : (missingOf o L b).length = 0 ∨ (missingOf o L b).length = 1 := by omega
    rcases hm with hm | hm
    · left
      exact hm
    · right
      exact ⟨hm, rfl⟩
  | false =>
    rw [hp, if_neg (by simp), List.length_singleton] at h
    left
    omega

theorem updateBlock_eq_of_fix (l : List SourceBlockState) (n : Nat)
    (g : SourceBlockState → SourceBlockState)
    (h : g (l.getD n emptyBlock) = l.getD n emptyBlock) : updateBlock l n g = l := by
  induction l generalizing n with
  | nil => rfl
  | cons hd tl ih =>
    cases n with
    | zero =>
      show g hd :: tl = hd :: tl
      rw [show g hd = hd from h]
    | succ n =>
      show hd :: updateBlock tl n g = hd :: tl
      rw [ih n h]

theorem takeResult_fst_congr (c₁ c₂ : RQContext) (hc : isComplete c₁ = isComplete c₂)
    (hr : c₁.result = c₂.result) : (takeResult c₁).1 = (takeResult c₂).1 := by
  by_cases h1 : isComplete c₁ = true
  · have h2 : isComplete c₂ = true := hc ▸ h1
    cases hres : c₁.result with
    | some buf =>
      rw [takeResult_ok c₁ buf h1 hres, takeResult_ok c₂ buf h2 (hr ▸ hres)]
    | none =>
      rw [takeResult_taken c₁ h1 hres, takeResult_taken c₂ h2 (hr ▸ hres)]
  · rw [Bool.not_eq_true] at h1
    rw [takeResult_incomplete c₁ h1, takeResult_incomplete c₂ (hc ▸ h1)]

/-! ### The claims -/

/-- C2: `raptorq_ctx_push_frame` returns `true` if and only if that
call causes all source blocks of the context to become solved (the
context was incomplete before the call and is complete after it); in
every other case — including when the call solves one block while other
blocks remain unsolved, and for rejected symbols — it returns `false`. -/
theorem c2_push_reports_completion (ctx : RQContext) (f : Frame) :
    (raptorq_ctx_push_frame ctx f).1 = true ↔
      (isComplete ctx = false ∧ isComplete (raptorq_ctx_push_frame ctx f).2 = true) := by
  unfold raptorq_ctx_push_frame
  by_cases hg : f.payload.length = ctx.oti.symbolSize ∧
      f.blockIndex < ctx.oti.sourceBlockCount ∧
      f.esi < ctx.oti.symbolsPerBlock + repairCount
  · rw [push_valid_eq ctx f hg]
    constructor
    · intro h
      have h' := (Bool.and_eq_true _ _).mp h
      exact ⟨(Bool.not_eq_true' _) ▸ h'.1, h'.2⟩
    · rintro ⟨h1, h2⟩
      show (!isComplete ctx && _) = true
      refine (Bool.and_eq_true _ _).mpr ⟨?_, ?_⟩
      · rw [Bool.not_eq_true']
        exact h1
      · exact h2
  · rw [push_malformed_eq ctx f hg]
    show false = true ↔ (isComplete ctx = false ∧ isComplete ctx = true)
    constructor
    · intro h
      simp at h
    · rintro ⟨h1, h2⟩
      rw [h1] at h2
      simp at h2

/-- C4: in every context reachable from a fresh context by any sequence
of operations, a successful `takeResult` returns a buffer of length
exactly `transferLength` (the block concatenation is truncated to the
transfer length even though the padded size `K × symbolSize × Z` may
exceed it). -/
theorem c4_result_length (o : OTI) (ops : List Op) (buf : List Byte) (ho : o.valid)
    (h : (takeResult (runOps (mkContext o) ops)).1 = Except.ok buf) :
    buf.length = o.transferLength := by
  obtain ⟨hoti, hlen, hblocks, hres⟩ := WF_runOps o ops ho
  by_cases hc : isComplete (runOps (mkContext o) ops) = true
  · cases hr : (runOps (mkContext o) ops).result with
    | some b =>
      rw [takeResult_ok _ b hc hr] at h
      obtain rfl : b = buf := by simpa using h
      exact hres b hr
    | none =>
      rw [takeResult_taken _ hc hr] at h
      simp at h
  · rw [Bool.not_eq_true] at hc
    rw [takeResult_incomplete _ hc] at h
    simp at h

/-- C5: whenever `isComplete` is `false`, `takeResult` fails with
`NotReadyError`, returns no buffer, and leaves the context unchanged so
the caller can continue pushing frames. -/
theorem c5_not_ready (ctx : RQContext) (h : isComplete ctx = false) :
    takeResult ctx = (Except.error RQError.NotReadyError, ctx) :=
  takeResult_incomplete ctx h

/-- C6: after a successful `takeResult`, a second `takeResult` on the
resulting context fails with `AlreadyTakenError` and returns no second
buffer: the first call moved the result out of the context. -/
theorem c6_single_take (ctx ctx' : RQContext) (buf : List Byte)
    (h : takeResult ctx = (Except.ok buf, ctx')) :
    takeResult ctx' = (Except.error RQError.AlreadyTakenError, ctx') := by
  by_cases hc : isComplete ctx = true
  · cases hr : ctx.result with
    | some b =>
      rw [takeResult_ok ctx b hc hr] at h
      obtain ⟨h1, h2⟩ := Prod.mk.injEq _ _ _ _ ▸ h
      obtain rfl : ctx' = (⟨ctx.oti, ctx.decoder, none⟩ : RQContext) := h2.symm
      have hc' : isComplete (⟨ctx.oti, ctx.decoder, none⟩ : RQContext) = true := hc
      exact takeResult_taken _ hc' rfl
    | none =>
      rw [takeResult_taken ctx hc hr] at h
      simp at h
  · rw [Bool.not_eq_true] at hc
    rw [takeResult_incomplete ctx hc] at h
    simp at h

/-- C7: in every reachable context, pushing a symbol whose
`(blockIndex, esi)` identity is already recorded is a no-op: it is not
an error, reports `false`, and leaves the context (decoder state and
solvability included) completely unchanged. -/
theorem c7_duplicate_push_noop (o : OTI) (ops : List Op) (f : Frame) (ho : o.valid)
    (hlenp : f.payload.length = o.symbolSize)
    (hrec : (findEsi ((runOps (mkContext o) ops).decoder.blocks.getD f.blockIndex
      emptyBlock).received f.esi).isSome = true) :
    push (runOps (mkContext o) ops) f = (Except.ok false, runOps (mkContext o) ops) := by
  obtain ⟨hoti, hlen, hblocks, hres⟩ := WF_runOps o ops ho
  have hN := NPS_runOps o ops ho
  have hb : f.blockIndex < o.sourceBlockCount := by
    by_contra hnb
    rw [not_lt] at hnb
    have hdflt : ((runOps (mkContext o) ops).decoder.blocks.getD f.blockIndex emptyBlock) =
        emptyBlock :=
      List.getD_eq_default _ _ (by omega)
    rw [hdflt] at hrec
    simp [emptyBlock, findEsi] at hrec
  have he : f.esi < o.symbolsPerBlock + repairCount := by
    have hmem := (findEsi_isSome_iff_mem _ _).mp hrec
    obtain ⟨pr, hpr, heq⟩ := List.mem_map.mp hmem
    rw [← heq]
    exact ((hblocks f.blockIndex hb).1 pr hpr).1
  have hguard : f.payload.length = (runOps (mkContext o) ops).oti.symbolSize ∧
      f.blockIndex < (runOps (mkContext o) ops).oti.sourceBlockCount ∧
      f.esi < (runOps (mkContext o) ops).oti.symbolsPerBlock + repairCount := by
    rw [hoti]
    exact ⟨hlenp, hb, he⟩
  rw [push_valid_eq _ f hguard]
  have hfix : ingestSymbol (runOps (mkContext o) ops).oti.symbolsPerBlock
      (runOps (mkContext o) ops).oti.symbolSize
      ((runOps (mkContext o) ops).decoder.blocks.getD f.blockIndex emptyBlock) f.esi
      f.payload =
      (runOps (mkContext o) ops).decoder.blocks.getD f.blockIndex emptyBlock := by
    rw [hoti, ingestSymbol_eq, if_pos hrec]
    by_cases hsome : ((runOps (mkContext o) ops).decoder.blocks.getD f.blockIndex
        emptyBlock).solved.isSome = true
    · rw [if_pos hsome]
    · rw [if_neg hsome]
      have hsn : ((runOps (mkContext o) ops).decoder.blocks.getD f.blockIndex
          emptyBlock).solved = none := by
        cases hx : ((runOps (mkContext o) ops).decoder.blocks.getD f.blockIndex
            emptyBlock).solved with
        | none => rfl
        | some v =>
          rw [hx] at hsome
          simp at hsome
      suffices hsolve : (if o.symbolsPerBlock ≤ ((runOps (mkContext o) ops).decoder.blocks.getD
            f.blockIndex emptyBlock).received.length
          then trySolve o.symbolsPerBlock o.symbolSize
            ((runOps (mkContext o) ops).decoder.blocks.getD f.blockIndex emptyBlock).received
          else none) =
          ((runOps (mkContext o) ops).decoder.blocks.getD f.blockIndex emptyBlock).solved by
        rw [hsolve]
      rcases hN f.blockIndex hb hsn with hlt | hnone
      · rw [if_neg (by omega), hsn]
      · by_cases hgate : o.symbolsPerBlock ≤ ((runOps (mkContext o) ops).decoder.blocks.getD
            f.blockIndex emptyBlock).received.length
        · rw [if_pos hgate, hnone, hsn]
        · rw [if_neg hgate, hsn]
  rw [updateBlock_eq_of_fix _ _ _ hfix]
  have hfalse : (!isComplete (runOps (mkContext o) ops) &&
      (runOps (mkContext o) ops).decoder.blocks.all (fun st => st.solved.isSome)) = false := by
    show (!isComplete (runOps (mkContext o) ops) && isComplete (runOps (mkContext o) ops)) =
      false
    exact Bool.not_and_self _
  rw [hfalse, if_neg (by simp)]

/-- C8: once `isComplete` returns `true` it returns `true` after every
further sequence of operations (pushes and result extraction included):
completion never transitions back to `false`. -/
theorem c8_complete_monotone (ctx : RQContext) (ops : List Op)
    (h : isComplete ctx = true) : isComplete (runOps ctx ops) = true :=
  isComplete_runOps ctx ops h

/-- C9: a pushed symbol with a wrong-length payload or an out-of-range
block index or ESI is rejected with `MalformedSymbolError` and the
context is entirely unchanged, so completion and all previously
recorded block states are unaffected and subsequent ingestion proceeds
normally. -/
theorem c9_malformed_isolation (ctx : RQContext) (f : Frame)
    (h : f.payload.length ≠ ctx.oti.symbolSize ∨
      ctx.oti.sourceBlockCount ≤ f.blockIndex ∨
      ctx.oti.symbolsPerBlock + repairCount ≤ f.esi) :
    push ctx f = (Except.error RQError.MalformedSymbolError, ctx) := by
  apply push_malformed_eq
  rintro ⟨h1, h2, h3⟩
  rcases h with h | h | h
  · exact h h1
  · omega
  · omega

/-- C10: modelling the C signature's nullable `len_out`: on a
successful extraction the buffer is returned whether or not `len_out`
is `NULL`, and the buffer length is written through `len_out` exactly
when `len_out` is non-`NULL`. -/
theorem c10_len_out_optional (ctx ctx' : RQContext) (buf : List Byte)
    (h : takeResult ctx = (Except.ok buf, ctx')) :
    raptorq_ctx_take_result ctx true = (some buf, none, ctx') ∧
      raptorq_ctx_take_result ctx false = (some buf, some buf.length, ctx') := by
  unfold raptorq_ctx_take_result
  rw [h]
  exact ⟨rfl, rfl⟩

/-- C1: round trip.  For every object of `transferLength` bytes encoded
into frames by the reference encoder, feeding the decoder any list of
those frames — in any order, duplicates included — that misses at most
the encoder's designed loss tolerance of symbols per block, makes the
context complete and `takeResult` returns a buffer bit-identical to the
original object. -/
theorem c1_decode_round_trip (o : OTI) (data : List Byte) (L : List Frame)
    (ho : o.valid) (hd : data.length = o.transferLength)
    (hmem : ∀ f ∈ L, f ∈ encoderFrames o data)
    (hloss : ∀ b, b < o.sourceBlockCount →
      (lostSymbols o L b).length ≤ designedLossTolerance) :
    isComplete (runPush (mkContext o) L) = true ∧
      (takeResult (runPush (mkContext o) L)).1 = Except.ok data := by
  obtain ⟨hoti, hlen, hblocks, hres⟩ :=
    Good_runPush o data L ho hd
      (fun f hf => mem_encoderFrames_consistent o data f (hmem f hf))
  have hall : ((List.range o.sourceBlockCount).all (solvableIds o L)) = true := by
    rw [List.all_eq_true]
    intro b hb
    exact lossTolerance_solvable o L b (hloss b (List.mem_range.mp hb))
  have hcomp : isComplete (runPush (mkContext o) L) = true := by
    rw [isComplete, all_solved_eq o data L _ hlen (fun b hb => (hblocks b hb).2.2.2)]
    exact hall
  have hresult : (runPush (mkContext o) L).result = some data := by
    rw [hres, if_pos hall]
  refine ⟨hcomp, ?_⟩
  rw [takeResult_ok _ data hcomp hresult]

/-- C3: order independence.  For a fixed consistent symbol list, pushing
any two permutations of it (duplicates included) into a fresh context
yields the same decoding result: every block's solved source symbols
are identical and `takeResult` returns identical bytes — arrival order
never affects the resulting values. -/
theorem c3_order_independence (o : OTI) (data : List Byte) (L1 L2 : List Frame)
    (ho : o.valid) (hd : data.length = o.transferLength)
    (hcons : ∀ f ∈ L1, f.consistent o data) (hperm : L1.Perm L2) :
    (∀ b, b < o.sourceBlockCount →
      ((runPush (mkContext o) L1).decoder.blocks.getD b emptyBlock).solved =
        ((runPush (mkContext o) L2).decoder.blocks.getD b emptyBlock).solved) ∧
      (takeResult (runPush (mkContext o) L1)).1 = (takeResult (runPush (mkContext o) L2)).1 := by
  obtain ⟨hoti1, hlen1, hblocks1, hres1⟩ := Good_runPush o data L1 ho hd hcons
  obtain ⟨hoti2, hlen2, hblocks2, hres2⟩ :=
    Good_runPush o data L2 ho hd (fun f hf => hcons f (hperm.mem_iff.mpr hf))
  have hsolv : solvableIds o L1 = solvableIds o L2 := by
    funext b
    exact solvableIds_congr o L2 L1 b (fun e => idMem_perm L1 L2 b e hperm)
  have hsolved : ∀ b, b < o.sourceBlockCount →
      ((runPush (mkContext o) L1).decoder.blocks.getD b emptyBlock).solved =
        ((runPush (mkContext o) L2).decoder.blocks.getD b emptyBlock).solved := by
    intro b hb
    rw [(hblocks1 b hb).2.2.2, (hblocks2 b hb).2.2.2, hsolv]
  refine ⟨hsolved, ?_⟩
  apply takeResult_fst_congr
  · rw [isComplete, isComplete,
      all_solved_eq o data L1 _ hlen1 (fun b hb => (hblocks1 b hb).2.2.2),
      all_solved_eq o data L2 _ hlen2 (fun b hb => (hblocks2 b hb).2.2.2), hsolv]
  · rw [hres1, hres2, hsolv]

/-! ### Witnesses: the claim theorems applied at concrete inputs -/

theorem c1_decode_round_trip_witness :
    (OTI.valid ⟨4, 2, 1⟩ ∧
      ([1, 2, 3, 4] : List Byte).length = (⟨4, 2, 1⟩ : OTI).transferLength ∧
      (∀ f ∈ ([⟨0, 2, [2, 6]⟩, ⟨0, 0, [1, 2]⟩, ⟨0, 0, [1, 2]⟩] : List Frame),
        f ∈ encoderFrames ⟨4, 2, 1⟩ [1, 2, 3, 4]) ∧
      (∀ b, b < (⟨4, 2, 1⟩ : OTI).sourceBlockCount →
        (lostSymbols ⟨4, 2, 1⟩
          ([⟨0, 2, [2, 6]⟩, ⟨0, 0, [1, 2]⟩, ⟨0, 0, [1, 2]⟩] : List Frame) b).length ≤
          designedLossTolerance)) ∧
    (isComplete (runPush (mkContext ⟨4, 2, 1⟩)
        [⟨0, 2, [2, 6]⟩, ⟨0, 0, [1, 2]⟩, ⟨0, 0, [1, 2]⟩]) = true ∧
      (takeResult (runPush (mkContext ⟨4, 2, 1⟩)
        [⟨0, 2, [2, 6]⟩, ⟨0, 0, [1, 2]⟩, ⟨0, 0, [1, 2]⟩])).1 = Except.ok [1, 2, 3, 4]) :=
  ⟨⟨by decide, by decide, by decide, by decide⟩,
    c1_decode_round_trip ⟨4, 2, 1⟩ [1, 2, 3, 4]
      [⟨0, 2, [2, 6]⟩, ⟨0, 0, [1, 2]⟩, ⟨0, 0, [1, 2]⟩]
      (by decide) (by decide) (by decide) (by decide)⟩

theorem c3_order_independence_witness :
    (OTI.valid ⟨4, 2, 1⟩ ∧
      ([1, 2, 3, 4] : List Byte).length = (⟨4, 2, 1⟩ : OTI).transferLength ∧
      (∀ f ∈ ([⟨0, 0, [1, 2]⟩, ⟨0, 2, [2, 6]⟩] : List Frame),
        f.consistent ⟨4, 2, 1⟩ [1, 2, 3, 4]) ∧
      ([⟨0, 0, [1, 2]⟩, ⟨0, 2, [2, 6]⟩] : List Frame).Perm
        [⟨0, 2, [2, 6]⟩, ⟨0, 0, [1, 2]⟩]) ∧
    ((∀ b, b < (⟨4, 2, 1⟩ : OTI).sourceBlockCount →
      ((runPush (mkContext ⟨4, 2, 1⟩)
        [⟨0, 0, [1, 2]⟩, ⟨0, 2, [2, 6]⟩]).decoder.blocks.getD b emptyBlock).solved =
        ((runPush (mkContext ⟨4, 2, 1⟩)
          [⟨0, 2, [2, 6]⟩, ⟨0, 0, [1, 2]⟩]).decoder.blocks.getD b emptyBlock).solved) ∧
      (takeResult (runPush (mkContext ⟨4, 2, 1⟩)
          [⟨0, 0, [1, 2]⟩, ⟨0, 2, [2, 6]⟩])).1 =
        (takeResult (runPush (mkContext ⟨4, 2, 1⟩)
          [⟨0, 2, [2, 6]⟩, ⟨0, 0, [1, 2]⟩])).1) :=
  ⟨⟨by decide, by decide, by decide, by decide⟩,
    c3_order_independence ⟨4, 2, 1⟩ [1, 2, 3, 4]
      [⟨0, 0, [1, 2]⟩, ⟨0, 2, [2, 6]⟩] [⟨0, 2, [2, 6]⟩, ⟨0, 0, [1, 2]⟩]
      (by decide) (by decide) (by decide) (by decide)⟩

theorem c4_result_length_witness :
    (OTI.valid ⟨4, 2, 1⟩ ∧
      (takeResult (runOps (mkContext ⟨4, 2, 1⟩)
        [Op.pushOp ⟨0, 0, [1, 2]⟩, Op.pushOp ⟨0, 1, [3, 4]⟩])).1 =
        Except.ok [1, 2, 3, 4]) ∧
    ([1, 2, 3, 4] : List Byte).length = (⟨4, 2, 1⟩ : OTI).transferLength :=
  ⟨⟨by decide, rfl⟩,
    c4_result_length ⟨4, 2, 1⟩ [Op.pushOp ⟨0, 0, [1, 2]⟩, Op.pushOp ⟨0, 1, [3, 4]⟩]
      [1, 2, 3, 4] (by decide) rfl⟩

theorem c5_not_ready_witness :
    isComplete (mkContext ⟨4, 2, 1⟩) = false ∧
      takeResult (mkContext ⟨4, 2, 1⟩) =
        (Except.error RQError.NotReadyError, mkContext ⟨4, 2, 1⟩) :=
  ⟨by decide, c5_not_ready (mkContext ⟨4, 2, 1⟩) (by decide)⟩

theorem c6_single_take_witness :
    (takeResult (runPush (mkContext ⟨4, 2, 1⟩) [⟨0, 0, [1, 2]⟩, ⟨0, 1, [3, 4]⟩]) =
      (Except.ok [1, 2, 3, 4],
        (takeResult (runPush (mkContext ⟨4, 2, 1⟩) [⟨0, 0, [1, 2]⟩, ⟨0, 1, [3, 4]⟩])).2)) ∧
    takeResult (takeResult (runPush (mkContext ⟨4, 2, 1⟩)
        [⟨0, 0, [1, 2]⟩, ⟨0, 1, [3, 4]⟩])).2 =
      (Except.error RQError.AlreadyTakenError,
        (takeResult (runPush (mkContext ⟨4, 2, 1⟩) [⟨0, 0, [1, 2]⟩, ⟨0, 1, [3, 4]⟩])).2) :=
  ⟨rfl,
    c6_single_take (runPush (mkContext ⟨4, 2, 1⟩) [⟨0, 0, [1, 2]⟩, ⟨0, 1, [3, 4]⟩])
      (takeResult (runPush (mkContext ⟨4, 2, 1⟩) [⟨0, 0, [1, 2]⟩, ⟨0, 1, [3, 4]⟩])).2
      [1, 2, 3, 4] rfl⟩

theorem c7_duplicate_push_noop_witness :
    (OTI.valid ⟨4, 2, 1⟩ ∧
      ([1, 2] : List Byte).length = (⟨4, 2, 1⟩ : OTI).symbolSize ∧
      (findEsi ((runOps (mkContext ⟨4, 2, 1⟩)
        [Op.pushOp ⟨0, 0, [1, 2]⟩]).decoder.blocks.getD 0 emptyBlock).received
        0).isSome = true) ∧
    push (runOps (mkContext ⟨4, 2, 1⟩) [Op.pushOp ⟨0, 0, [1, 2]⟩]) ⟨0, 0, [1, 2]⟩ =
      (Except.ok false, runOps (mkContext ⟨4, 2, 1⟩) [Op.pushOp ⟨0, 0, [1, 2]⟩]) :=
  ⟨⟨by decide, by decide, by decide⟩,
    c7_duplicate_push_noop ⟨4, 2, 1⟩ [Op.pushOp ⟨0, 0, [1, 2]⟩] ⟨0, 0, [1, 2]⟩
      (by decide) (by decide) (by decide)⟩

theorem c8_complete_monotone_witness :
    isComplete (runPush (mkContext ⟨4, 2, 1⟩) [⟨0, 0, [1, 2]⟩, ⟨0, 1, [3, 4]⟩]) = true ∧
      isComplete (runOps (runPush (mkContext ⟨4, 2, 1⟩) [⟨0, 0, [1, 2]⟩, ⟨0, 1, [3, 4]⟩])
        [Op.takeOp, Op.pushOp ⟨0, 1, [9, 9]⟩, Op.takeOp]) = true :=
  ⟨by decide,
    c8_complete_monotone (runPush (mkContext ⟨4, 2, 1⟩) [⟨0, 0, [1, 2]⟩, ⟨0, 1, [3, 4]⟩])
      [Op.takeOp, Op.pushOp ⟨0, 1, [9, 9]⟩, Op.takeOp] (by decide)⟩

theorem c9_malformed_isolation_witness :
    (([1, 2] : List Byte).length ≠ (mkContext ⟨4, 2, 1⟩).oti.symbolSize ∨
      (mkContext ⟨4, 2, 1⟩).oti.sourceBlockCount ≤ 0 ∨
      (mkContext ⟨4, 2, 1⟩).oti.symbolsPerBlock + repairCount ≤ 5) ∧
    push (mkContext ⟨4, 2, 1⟩) ⟨0, 5, [1, 2]⟩ =
      (Except.error RQError.MalformedSymbolError, mkContext ⟨4, 2, 1⟩) :=
  ⟨by decide,
    c9_malformed_isolation (mkContext ⟨4, 2, 1⟩) ⟨0, 5, [1, 2]⟩ (by decide)⟩

theorem c10_len_out_optional_witness :
    (takeResult (runPush (mkContext ⟨4, 2, 1⟩) [⟨0, 0, [1, 2]⟩, ⟨0, 1, [3, 4]⟩]) =
      (Except.ok [1, 2, 3, 4],
        (takeResult (runPush (mkContext ⟨4, 2, 1⟩) [⟨0, 0, [1, 2]⟩, ⟨0, 1, [3, 4]⟩])).2)) ∧
    (raptorq_ctx_take_result (runPush (mkContext ⟨4, 2, 1⟩)
        [⟨0, 0, [1, 2]⟩, ⟨0, 1, [3, 4]⟩]) true =
      (some [1, 2, 3, 4], none,
        (takeResult (runPush (mkContext ⟨4, 2, 1⟩) [⟨0, 0, [1, 2]⟩, ⟨0, 1, [3, 4]⟩])).2) ∧
      raptorq_ctx_take_result (runPush (mkContext ⟨4, 2, 1⟩)
        [⟨0, 0, [1, 2]⟩, ⟨0, 1, [3, 4]⟩]) false =
      (some [1, 2, 3, 4], some ([1, 2, 3, 4] : List Byte).length,
        (takeResult (runPush (mkContext ⟨4, 2, 1⟩) [⟨0, 0, [1, 2]⟩, ⟨0, 1, [3, 4]⟩])).2)) :=
  ⟨rfl,
    c10_len_out_optional (runPush (mkContext ⟨4, 2, 1⟩) [⟨0, 0, [1, 2]⟩, ⟨0, 1, [3, 4]⟩])
      (takeResult (runPush (mkContext ⟨4, 2, 1⟩) [⟨0, 0, [1, 2]⟩, ⟨0, 1, [3, 4]⟩])).2
      [1, 2, 3, 4] rfl⟩

end RaptorQ
